import Mathlib

/-!
Verification of the AgentFS storage engine (SQLite-backed agent state store).

This file gives a shallow embedding, in Lean 4, of the parts of the Rust
sources relevant to the checked claims:

* the chunked filesystem layer (`filesystem/agentfs_fs.rs`,
  `filesystem/file_handle.rs`, `filesystem/cache.rs`), modelled as pure
  functions over an explicit database state; SQL statements are modelled
  one-for-one, including SQLite's enforcement of the `REFERENCES` clauses
  declared in `schema.rs` (the connections run `PRAGMA foreign_keys=ON`,
  see `connection/pragmas.rs`) and the per-statement autocommit of the
  writer (`with_conn` opens no transaction, see `connection/pool.rs`),
  so a failing statement keeps the effects of the preceding ones;
* checksum verification (`integrity.rs`), parameterised by the hash
  function `xxh3_64` (an external crate, so it enters as an opaque
  parameter `H`);
* the schema / migration logic (`schema.rs`, `lib.rs`);
* the reflection trigger policy (`memory/reflector.rs`);
* the stateful OpenAI-compatible stream parser (`streaming.rs`);
* the memory tier rebalancing (`memory/tiers.rs`), with the float score
  made abstract (a per-key rational score), since the claims under test
  concern the assignment logic, not float arithmetic.

Strings are modelled as `List Char` (the Rust code walks `&str` by
characters), byte strings as `List Nat`.
-/

/-! ## Generic list helpers: splitting paths, chunking, sorting -/

/-- Characters of a path, split at every slash; mirrors Rust
`str::split('/')` (which yields empty segments around repeated or
terminal separators). -/
def splitSeg : List Char → List (List Char)
  | [] => [[]]
  | c :: cs =>
    if c = '/' then [] :: splitSeg cs
    else (c :: (splitSeg cs).headD []) :: (splitSeg cs).tail

theorem splitSeg_ne_nil (l : List Char) : splitSeg l ≠ [] := by
  induction l with
  | nil => simp [splitSeg]
  | cons c cs ih => by_cases hc : c = '/' <;> simp [splitSeg, hc]

theorem splitSeg_append (a b : List Char) :
    splitSeg (a ++ '/' :: b) = splitSeg a ++ splitSeg b := by
  induction a with
  | nil => simp [splitSeg]
  | cons c cs ih =>
    rcases hcs : splitSeg cs with _ | ⟨s, ss⟩
    · exact absurd hcs (splitSeg_ne_nil cs)
    · by_cases hc : c = '/'
      · simp [splitSeg, hc, ih]
      · simp [splitSeg, hc, ih, hcs]

theorem splitSeg_no_sep (b : List Char) (h : '/' ∉ b) : splitSeg b = [b] := by
  induction b with
  | nil => rfl
  | cons c cs ih =>
    simp only [List.mem_cons, not_or] at h
    have hc : ¬ c = '/' := fun hcc => h.1 hcc.symm
    simp [splitSeg, ih h.2, hc]

/-- Segments of `x` split on `/`, with empty segments dropped; the common
core of `resolve_path` and `ensure_parents` component extraction. -/
def comps0 (x : List Char) : List (List Char) :=
  (splitSeg x).filter (fun s => !s.isEmpty)

/-- Drop one leading slash, mirroring `path.strip_prefix('/').unwrap_or(path)`. -/
def stripPrefixSlash (p : List Char) : List Char :=
  match p with
  | c :: rest => if c = '/' then rest else p
  | [] => p

/-- Path components: strip one leading `/`, split on `/`, and drop empty
segments, mirroring `path.split('/').filter(|c| !c.is_empty())`. -/
def pathComps (p : List Char) : List (List Char) :=
  comps0 (stripPrefixSlash p)

theorem comps0_slash_cons (x : List Char) : comps0 ('/' :: x) = comps0 x := by
  simp [comps0, splitSeg]

theorem pathComps_eq_comps0 (p : List Char) (h : p.head? = some '/') :
    pathComps p = comps0 p := by
  cases p with
  | nil => simp at h
  | cons c rest =>
    simp only [List.head?_cons, Option.some.injEq] at h
    subst h
    simp [pathComps, stripPrefixSlash, comps0_slash_cons]

theorem comps0_append (a b : List Char) :
    comps0 (a ++ '/' :: b) = comps0 a ++ comps0 b := by
  simp [comps0, splitSeg_append]

theorem comps0_trailing (q : List Char) : comps0 (q ++ ['/']) = comps0 q := by
  have : comps0 (q ++ '/' :: ([] : List Char)) = comps0 q ++ comps0 [] := comps0_append q []
  simpa [comps0, splitSeg] using this

theorem comps0_no_sep (b : List Char) (hb : '/' ∉ b) (hne : b ≠ []) :
    comps0 b = [b] := by
  unfold comps0
  rw [splitSeg_no_sep b hb]
  cases b with
  | nil => exact absurd rfl hne
  | cons c cs => simp [List.filter]

/-- Error kinds of `AgentFSError` (`error.rs`) restricted to what the
modelled operations produce; `sqliteErr` stands for a wrapped rusqlite
error, e.g. a PRIMARY KEY or FOREIGN KEY constraint violation. -/
inductive Err where
  | fileNotFound (path : List Char)
  | notADirectory (path : List Char)
  | notAFile (path : List Char)
  | dirNotEmpty (path : List Char)
  | invalidPath (path : List Char)
  | checksumMismatch (ino : Nat) (chunkIndex : Nat) (expected : Nat) (actual : Nat)
  | schemaMismatch (expected : Nat) (found : Nat)
  | keyNotFound (key : List Char)
  | sqliteErr
  | noFuel
deriving Repr, DecidableEq

/-- Drop one trailing slash, mirroring `path.strip_suffix('/').unwrap_or(path)`. -/
def stripSuffixSlash (p : List Char) : List Char :=
  if p.getLast? = some '/' then p.dropLast else p

/-- Split a list at its last slash: `lastSplit q = some (a, b)` when
`q = a ++ '/' :: b` and `b` is slash-free; `none` when `q` has no slash.
Mirrors `path.rfind('/')` plus the index slicing in `split_path`. -/
def lastSplit : List Char → Option (List Char × List Char)
  | [] => none
  | c :: cs =>
    match lastSplit cs with
    | some (a, b) => some (c :: a, b)
    | none => if c = '/' then some ([], cs) else none

theorem lastSplit_none_no_sep (q : List Char) (h : lastSplit q = none) : '/' ∉ q := by
  induction q with
  | nil => simp
  | cons c cs ih =>
    simp only [lastSplit] at h
    cases hcs : lastSplit cs with
    | some ab =>
      obtain ⟨a', b'⟩ := ab
      rw [hcs] at h
      simp at h
    | none =>
      rw [hcs] at h
      by_cases hc : c = '/'
      · rw [if_pos hc] at h; simp at h
      · rw [if_neg hc] at h
        simp only [List.mem_cons, not_or]
        exact ⟨fun hh => hc hh.symm, ih hcs⟩

theorem lastSplit_spec (q a b : List Char) (h : lastSplit q = some (a, b)) :
    q = a ++ '/' :: b ∧ '/' ∉ b := by
  induction q generalizing a b with
  | nil => simp [lastSplit] at h
  | cons c cs ih =>
    simp only [lastSplit] at h
    cases hcs : lastSplit cs with
    | some ab =>
      obtain ⟨a', b'⟩ := ab
      rw [hcs] at h
      simp only [Option.some.injEq, Prod.mk.injEq] at h
      obtain ⟨ha, hb⟩ := h
      obtain ⟨h1, h2⟩ := ih a' b' hcs
      subst hb
      rw [← ha, h1]
      simp [h2]
    | none =>
      rw [hcs] at h
      by_cases hc : c = '/'
      · rw [if_pos hc] at h
        simp only [Option.some.injEq, Prod.mk.injEq] at h
        obtain ⟨ha, hb⟩ := h
        subst hb
        rw [← ha, hc]
        exact ⟨rfl, lastSplit_none_no_sep cs hcs⟩
      · rw [if_neg hc] at h; simp at h

/-- Split a path into `(parent_path, basename)`, mirroring
`AgentFSFileSystem::split_path` in `agentfs_fs.rs`. -/
def split_path (p : List Char) : Except Err (List Char × List Char) :=
  if p = ['/'] then .error (.invalidPath p)
  else
    match lastSplit (stripSuffixSlash p) with
    | some ([], b) => .ok (['/'], b)
    | some (a, b) => .ok (a, b)
    | none => .error (.invalidPath (stripSuffixSlash p))

theorem comps0_head_slash (p : List Char) (hp : p.head? = some '/') (hne : p ≠ ['/']) :
    stripSuffixSlash p = p ∨
      ∃ q, p = q ++ ['/'] ∧ stripSuffixSlash p = q := by
  unfold stripSuffixSlash
  split
  · next h =>
    right
    refine ⟨p.dropLast, ?_, rfl⟩
    have hnil : p ≠ [] := by intro hc; subst hc; simp at hp
    conv_lhs => rw [← List.dropLast_append_getLast hnil]
    rw [List.getLast?_eq_getLast p hnil] at h
    simp only [Option.some.injEq] at h
    rw [h]
  · left; rfl

theorem stripSuffix_head (p : List Char) (hp : p.head? = some '/') (hne : p ≠ ['/']) :
    (stripSuffixSlash p).head? = some '/' := by
  cases p with
  | nil => simp at hp
  | cons c rest =>
    simp only [List.head?_cons, Option.some.injEq] at hp
    subst hp
    unfold stripSuffixSlash
    split
    · next h =>
      cases rest with
      | nil => exact absurd rfl hne
      | cons d ds => simp
    · simp

/-- Key path algebra: a successful `split_path` on an absolute path with a
non-empty basename decomposes the component list of the full path into the
parent components followed by the basename. -/
theorem split_path_comps (p pp n : List Char) (hp : p.head? = some '/')
    (h : split_path p = .ok (pp, n)) (hn : n ≠ []) :
    pathComps p = pathComps pp ++ [n] ∧ '/' ∉ n ∧ pp.head? = some '/' := by
  unfold split_path at h
  split at h
  · exact absurd h (by simp)
  · next hne =>
    rcases hq : lastSplit (stripSuffixSlash p) with _ | ⟨a, b⟩
    · rw [hq] at h; exact absurd h (by simp)
    · obtain ⟨hdecomp, hnosep⟩ := lastSplit_spec _ a b hq
      rw [hq] at h
      have hcp : b ≠ [] → comps0 p = comps0 a ++ [b] := by
        intro hb
        have hcq : comps0 (stripSuffixSlash p) = comps0 a ++ [b] := by
          rw [hdecomp, comps0_append, comps0_no_sep b hnosep hb]
        rcases comps0_head_slash p hp hne with heq | ⟨q, hpq, heq⟩
        · rw [← heq, hcq]
        · rw [hpq, comps0_trailing, ← heq, hcq]
      cases a with
      | nil =>
        simp only [Except.ok.injEq, Prod.mk.injEq] at h
        obtain ⟨h1, h2⟩ := h
        subst h1 h2
        refine ⟨?_, hnosep, rfl⟩
        rw [pathComps_eq_comps0 p hp, hcp hn]
        simp [pathComps, stripPrefixSlash, comps0, splitSeg]
      | cons x xs =>
        simp only [Except.ok.injEq, Prod.mk.injEq] at h
        obtain ⟨h1, h2⟩ := h
        subst h1 h2
        have hx : x = '/' := by
          have hh := stripSuffix_head p hp hne
          rw [hdecomp] at hh
          simpa using hh
        subst hx
        refine ⟨?_, hnosep, by simp⟩
        rw [pathComps_eq_comps0 p hp, hcp hn,
          pathComps_eq_comps0 ('/' :: xs) (by simp), comps0_slash_cons]

/-- Byte strings. -/
abbrev Bytes := List Nat


/-- Split `d` into consecutive chunks of `cs` bytes, the last chunk
possibly shorter; mirrors Rust `slice::chunks(chunk_size)` as used in
`write_file_data` (`file_handle.rs`). Rust panics on `chunk_size = 0`;
that case is unreachable because the config builder clamps
`chunk_size ≥ 4096`, and lemmas assume `0 < cs`. -/
def chunksOf (cs : Nat) : Bytes → List Bytes
  | [] => []
  | x :: xs =>
    if _h : cs = 0 then [x :: xs]
    else (x :: xs).take cs :: chunksOf cs ((x :: xs).drop cs)
termination_by d => d.length
decreasing_by
  simp only [List.length_drop, List.length_cons]
  omega

theorem chunksOf_flatten (cs : Nat) (d : Bytes) : (chunksOf cs d).flatten = d := by
  induction d using chunksOf.induct cs with
  | case1 => simp [chunksOf]
  | case2 x xs h => simp [chunksOf, h]
  | case3 x xs h ih =>
    rw [chunksOf]
    simp only [List.flatten_cons, dif_neg h, ih, List.take_append_drop]

theorem chunksOf_ne_nil (cs : Nat) (d : Bytes) :
    ∀ c ∈ chunksOf cs d, c ≠ [] := by
  induction d using chunksOf.induct cs with
  | case1 => simp [chunksOf]
  | case2 x xs h => simp [chunksOf, h]
  | case3 x xs h ih =>
    rw [chunksOf, dif_neg h]
    intro c hc
    rcases List.mem_cons.mp hc with h1 | h1
    · subst h1
      intro hcon
      have hlen := congrArg List.length hcon
      simp only [List.length_take, List.length_nil, List.length_cons] at hlen
      omega
    · exact ih c h1

theorem chunksOf_length_le (cs : Nat) (hcs : 0 < cs) (d : Bytes) :
    ∀ c ∈ chunksOf cs d, c.length ≤ cs := by
  induction d using chunksOf.induct cs with
  | case1 => simp [chunksOf]
  | case2 x xs h => omega
  | case3 x xs h ih =>
    rw [chunksOf, dif_neg h]
    intro c hc
    rcases List.mem_cons.mp hc with h1 | h1
    · subst h1; simp
    · exact ih c h1

theorem chunksOf_full (cs : Nat) (hcs : 0 < cs) (d : Bytes) :
    ∀ i, i + 1 < (chunksOf cs d).length → ((chunksOf cs d).getD i []).length = cs := by
  induction d using chunksOf.induct cs with
  | case1 => simp [chunksOf]
  | case2 x xs h => omega
  | case3 x xs h ih =>
    rw [chunksOf, dif_neg h]
    intro i hi
    cases i with
    | zero =>
      simp only [List.getD_cons_zero, List.length_take]
      simp only [List.length_cons] at hi ⊢
      have hrest : chunksOf cs ((x :: xs).drop cs) ≠ [] := by
        intro hcon
        rw [hcon] at hi
        simp at hi
      have hdrop : (x :: xs).drop cs ≠ [] := by
        intro hcon
        rw [hcon] at hrest
        simp [chunksOf] at hrest
      have : cs < (x :: xs).length := by
        by_contra hle
        push_neg at hle
        exact hdrop (List.drop_eq_nil_of_le hle)
      simp only [List.length_cons] at this
      omega
    | succ j =>
      simp only [List.getD_cons_succ]
      exact ih j (by simpa using hi)

/-- Insert into a list sorted by key `f`, keeping earlier elements first
among equal keys. -/
def insertByKey {α : Type} (f : α → Nat) (a : α) : List α → List α
  | [] => [a]
  | b :: bs => if f a ≤ f b then a :: b :: bs else b :: insertByKey f a bs

/-- Insertion sort by key `f`; models a SQL `ORDER BY` on an integer
column. -/
def sortByKey {α : Type} (f : α → Nat) : List α → List α
  | [] => []
  | a :: as => insertByKey f a (sortByKey f as)

theorem insertByKey_head {α : Type} (f : α → Nat) (a : α) (l : List α)
    (h : ∀ b ∈ l, f a ≤ f b) : insertByKey f a l = a :: l := by
  cases l with
  | nil => rfl
  | cons b bs => simp [insertByKey, h b (List.mem_cons_self b bs)]

theorem sortByKey_sorted_id {α : Type} (f : α → Nat) (l : List α)
    (h : l.Pairwise (fun a b => f a ≤ f b)) : sortByKey f l = l := by
  induction l with
  | nil => rfl
  | cons a as ih =>
    rw [List.pairwise_cons] at h
    rw [sortByKey, ih h.2, insertByKey_head f a as h.1]

theorem mem_insertByKey {α : Type} (f : α → Nat) (a x : α) (l : List α) :
    x ∈ insertByKey f a l ↔ x ∈ a :: l := by
  induction l with
  | nil => simp [insertByKey]
  | cons b bs ih =>
    simp only [insertByKey]
    split
    · simp
    · simp only [List.mem_cons, ih]
      tauto

theorem mem_sortByKey {α : Type} (f : α → Nat) (x : α) (l : List α) :
    x ∈ sortByKey f l ↔ x ∈ l := by
  induction l with
  | nil => simp [sortByKey]
  | cons a as ih =>
    rw [sortByKey, mem_insertByKey]
    simp [ih]

/-! ## The filesystem database state

Rows of the four filesystem tables of `SCHEMA_V1` (`schema.rs`), plus the
`sqlite_sequence` counter backing `fs_inode`'s `AUTOINCREMENT` and a
logical clock standing in for `strftime('%Y-%m-%dT%H:%M:%f','now')`.
-/

/-- A row of `fs_inode`. -/
structure Inode where
  ino : Nat
  mode : Nat
  size : Nat
  nlink : Int
  ctime : Nat
  mtime : Nat
  atime : Nat
deriving Repr, DecidableEq

/-- A row of `fs_dentry`. -/
structure Dentry where
  parent_ino : Nat
  name : List Char
  ino : Nat
deriving Repr, DecidableEq

/-- A row of `fs_data`. -/
structure Chunk where
  ino : Nat
  chunk_index : Nat
  data : Bytes
  checksum : Nat
deriving Repr, DecidableEq

/-- A row of `fs_symlink`. -/
structure Symlink where
  ino : Nat
  target : List Char
deriving Repr, DecidableEq

/-- The filesystem portion of the SQLite database. -/
structure FS where
  inodes : List Inode
  dentries : List Dentry
  chunks : List Chunk
  symlinks : List Symlink
  seq : Nat
  clock : Nat
deriving Repr, DecidableEq

/-- Root inode number (`ROOT_INO` in `agentfs_fs.rs`). -/
def ROOT_INO : Nat := 1

/-- POSIX mode bits (`S_IFDIR`, `S_IFREG` in `agentfs_fs.rs`). -/
def S_IFDIR : Nat := 0o040000

def S_IFREG : Nat := 0o100000

/-- Stat helper `is_dir`: `(mode & 0o170000) == 0o040000`. -/
def mode_is_dir (mode : Nat) : Bool := mode &&& 0o170000 = 0o040000

/-- Stat helper `is_file`: `(mode & 0o170000) == 0o100000`. -/
def mode_is_file (mode : Nat) : Bool := mode &&& 0o170000 = 0o100000

/-- `SELECT ... FROM fs_inode WHERE ino = ?` (first row; `ino` is the
primary key so there is at most one). -/
def findInode (fs : FS) (i : Nat) : Option Inode :=
  fs.inodes.find? (fun r => r.ino = i)

def inodeExists (fs : FS) (i : Nat) : Bool :=
  (findInode fs i).isSome

/-- `SELECT ino FROM fs_dentry WHERE parent_ino = ?1 AND name = ?2`. -/
def lookupDentry (fs : FS) (p : Nat) (n : List Char) : Option Nat :=
  (fs.dentries.find? (fun d => d.parent_ino = p && d.name = n)).map (·.ino)

/-! SQL statement primitives. `foreign_keys=ON` is applied to every
connection (`connection/pragmas.rs`), and `fs_dentry.parent_ino`,
`fs_dentry.ino` and `fs_data.ino` are declared `REFERENCES
fs_inode(ino)` (`fs_data` with `ON DELETE CASCADE`), so inserts check
that the referenced inode exists and deleting a still-referenced inode
fails, exactly as SQLite enforces them statement by statement. -/

/-- `INSERT INTO fs_dentry (parent_ino, name, ino) VALUES (...)`:
fails on a `(parent_ino, name)` primary-key conflict or a foreign-key
violation of either inode reference. -/
def insertDentry (fs : FS) (p : Nat) (n : List Char) (i : Nat) : Except Err FS :=
  if (lookupDentry fs p n).isSome then .error .sqliteErr
  else if !(inodeExists fs p && inodeExists fs i) then .error .sqliteErr
  else .ok { fs with dentries := fs.dentries ++ [⟨p, n, i⟩] }

/-- `INSERT INTO fs_inode (mode, nlink) VALUES (...)`: `AUTOINCREMENT`
assigns `max(sqlite_sequence, max rowid) + 1`; returns
`last_insert_rowid`. -/
def insertInode (fs : FS) (mode : Nat) (nlink : Int) : FS × Nat :=
  let newIno := (fs.inodes.map (·.ino)).foldl max fs.seq + 1
  ({ fs with
      inodes := fs.inodes ++
        [⟨newIno, mode, 0, nlink, fs.clock, fs.clock, fs.clock⟩]
      seq := newIno },
   newIno)

/-- `DELETE FROM fs_dentry WHERE parent_ino = ?1 AND name = ?2`. -/
def deleteDentry (fs : FS) (p : Nat) (n : List Char) : FS :=
  { fs with dentries :=
      fs.dentries.filter (fun d => !(d.parent_ino = p && d.name = n)) }

/-- `DELETE FROM fs_dentry WHERE parent_ino = ?1`. -/
def deleteDentriesUnder (fs : FS) (p : Nat) : FS :=
  { fs with dentries := fs.dentries.filter (fun d => !(d.parent_ino = p)) }

/-- `DELETE FROM fs_dentry WHERE ino = ?1`. -/
def deleteDentriesTo (fs : FS) (i : Nat) : FS :=
  { fs with dentries := fs.dentries.filter (fun d => !(d.ino = i)) }

/-- `DELETE FROM fs_data WHERE ino = ?1`. -/
def deleteChunks (fs : FS) (i : Nat) : FS :=
  { fs with chunks := fs.chunks.filter (fun c => !(c.ino = i)) }

/-- `DELETE FROM fs_symlink WHERE ino = ?1`. -/
def deleteSymlink (fs : FS) (i : Nat) : FS :=
  { fs with symlinks := fs.symlinks.filter (fun s => !(s.ino = i)) }

/-- `DELETE FROM fs_inode WHERE ino = ?1`: fails while any `fs_dentry`
row still references the inode (either column, `NO ACTION`), and
cascade-deletes `fs_data` and `fs_symlink` rows (`ON DELETE CASCADE`). -/
def deleteInode (fs : FS) (i : Nat) : Except Err FS :=
  if fs.dentries.any (fun d => d.parent_ino = i || d.ino = i) then
    .error .sqliteErr
  else
    .ok { fs with
      inodes := fs.inodes.filter (fun r => !(r.ino = i))
      chunks := fs.chunks.filter (fun c => !(c.ino = i))
      symlinks := fs.symlinks.filter (fun s => !(s.ino = i)) }

/-- `INSERT INTO fs_data (ino, chunk_index, data, checksum) VALUES (...)`:
fails on an `(ino, chunk_index)` primary-key conflict or a missing
inode (foreign key). -/
def insertChunk (fs : FS) (i idx : Nat) (data : Bytes) (cksum : Nat) :
    Except Err FS :=
  if fs.chunks.any (fun c => c.ino = i && c.chunk_index = idx) then
    .error .sqliteErr
  else if !(inodeExists fs i) then .error .sqliteErr
  else .ok { fs with chunks := fs.chunks ++ [⟨i, idx, data, cksum⟩] }

/-- `UPDATE fs_inode SET size = ?, mtime = now WHERE ino = ?`. -/
def updateInodeSize (fs : FS) (i : Nat) (size : Nat) : FS :=
  { fs with inodes := fs.inodes.map (fun r =>
      if r.ino = i then { r with size := size, mtime := fs.clock } else r) }

/-- `UPDATE fs_inode SET atime = now WHERE ino = ?`. -/
def updateInodeAtime (fs : FS) (i : Nat) : FS :=
  { fs with inodes := fs.inodes.map (fun r =>
      if r.ino = i then { r with atime := fs.clock } else r) }

/-- `UPDATE fs_inode SET nlink = nlink - 1 WHERE ino = ?`. -/
def decNlink (fs : FS) (i : Nat) : FS :=
  { fs with inodes := fs.inodes.map (fun r =>
      if r.ino = i then { r with nlink := r.nlink - 1 } else r) }

/-- `SELECT nlink FROM fs_inode WHERE ino = ?` (0 when absent, though
callers only use it right after touching the row). -/
def getNlink (fs : FS) (i : Nat) : Int :=
  match findInode fs i with
  | some r => r.nlink
  | none => 0

/-! ## Dentry cache (`cache.rs`)

A bounded `HashMap<(i64, String), i64>`; when an insert finds the map at
capacity it clears everything first. Modelled as an association list with
at most one entry per key. -/

abbrev Cache := List (Nat × List Char × Nat)

/-- Cache capacity: `DentryCache::new(4096)` in `AgentFSFileSystem::new`. -/
def CACHE_CAP : Nat := 4096

def cacheGet (c : Cache) (p : Nat) (n : List Char) : Option Nat :=
  (c.find? (fun e => e.1 = p && e.2.1 = n)).map (·.2.2)

def cacheInsert (c : Cache) (p : Nat) (n : List Char) (i : Nat) : Cache :=
  let c1 := if CACHE_CAP ≤ c.length then [] else c
  (c1.filter (fun e => !(e.1 = p && e.2.1 = n))) ++ [(p, n, i)]

def cacheRemove (c : Cache) (p : Nat) (n : List Char) : Cache :=
  c.filter (fun e => !(e.1 = p && e.2.1 = n))

/-- `components.join("/")` as in `format!("/{}", components.join("/"))`. -/
def joinComps : List (List Char) → List Char
  | [] => []
  | [c] => c
  | c :: rest => c ++ '/' :: joinComps rest

/-! ## Path resolution (`resolve_path`, `ensure_parents`) -/

/-- The component loop of `AgentFSFileSystem::resolve_path`: cache first,
then the dentry table, caching on a hit; a missing component is
`FileNotFound` with the full joined path. -/
def resolveLoop (fs : FS) (orig : List (List Char)) :
    Cache → Nat → List (List Char) → Cache × Except Err Nat
  | cache, cur, [] => (cache, .ok cur)
  | cache, cur, c :: rest =>
    match cacheGet cache cur c with
    | some i => resolveLoop fs orig cache i rest
    | none =>
      match lookupDentry fs cur c with
      | some i => resolveLoop fs orig (cacheInsert cache cur c i) i rest
      | none => (cache, .error (.fileNotFound ('/' :: joinComps orig)))

/-- `AgentFSFileSystem::resolve_path`. -/
def resolve_path (fs : FS) (cache : Cache) (path : List Char) :
    Cache × Except Err Nat :=
  if path = ['/'] then (cache, .ok ROOT_INO)
  else resolveLoop fs (pathComps path) cache ROOT_INO (pathComps path)

/-- The component loop of `ensure_parents`: like resolution, but a
missing component creates a fresh directory inode (mode `S_IFDIR|0o755`,
nlink 2) and a dentry beneath the current inode — whatever kind of inode
that is. -/
def ensureLoop : FS → Cache → Nat → List (List Char) → FS × Cache × Except Err Nat
  | fs, cache, cur, [] => (fs, cache, .ok cur)
  | fs, cache, cur, c :: rest =>
    match cacheGet cache cur c with
    | some i => ensureLoop fs cache i rest
    | none =>
      match lookupDentry fs cur c with
      | some i => ensureLoop fs (cacheInsert cache cur c i) i rest
      | none =>
        match insertInode fs (S_IFDIR ||| 0o755) 2 with
        | (fs1, newIno) =>
          match insertDentry fs1 cur c newIno with
          | .error e => (fs1, cache, .error e)
          | .ok fs2 => ensureLoop fs2 (cacheInsert cache cur c newIno) newIno rest

/-- `ensure_parents` (`agentfs_fs.rs`). -/
def ensure_parents (fs : FS) (cache : Cache) (path : List Char) :
    FS × Cache × Except Err Nat :=
  if path = ['/'] then (fs, cache, .ok ROOT_INO)
  else ensureLoop fs cache ROOT_INO (pathComps path)

/-- `AgentFSFileSystem::stat_ino`; the `FileNotFound` message `<ino:N>`
is not rendered (numeric formatting is irrelevant to the claims). -/
def stat_ino (fs : FS) (i : Nat) : Except Err Inode :=
  match findInode fs i with
  | some r => .ok r
  | none => .error (.fileNotFound [])

/-! ## Chunk read/write (`file_handle.rs`, `integrity.rs`) -/

/-- `integrity::compute_checksum` delegates to `xxh3_64` from the
external `xxhash_rust` crate, which enters the model as the parameter
`H`; the `u64 → i64 → u64` bit-preserving storage round-trip is the
identity, so checksums stay `Nat`. -/
def compute_checksum (H : Bytes → Nat) (data : Bytes) : Nat := H data

/-- `integrity::verify_checksum`. -/
def verify_checksum (H : Bytes → Nat) (data : Bytes) (expected : Nat)
    (ino chunk_index : Nat) : Except Err Unit :=
  if compute_checksum H data = expected then .ok ()
  else .error (.checksumMismatch ino chunk_index expected (compute_checksum H data))

/-- The insert loop of `write_file_data`: each chunk is inserted with its
enumeration index and checksum; a failing insert aborts, keeping prior
inserts (autocommit). -/
def insertChunksLoop (H : Bytes → Nat) : FS → Nat → Nat → List Bytes → FS × Except Err Unit
  | fs, _, _, [] => (fs, .ok ())
  | fs, ino, i, c :: rest =>
    match insertChunk fs ino i c (compute_checksum H c) with
    | .error e => (fs, .error e)
    | .ok fs1 => insertChunksLoop H fs1 ino (i + 1) rest

/-- `write_file_data` (`file_handle.rs`). -/
def write_file_data (H : Bytes → Nat) (fs : FS) (ino : Nat) (data : Bytes)
    (chunk_size : Nat) : FS × Except Err Unit :=
  let fs1 := deleteChunks fs ino
  if data.isEmpty then (updateInodeSize fs1 ino 0, .ok ())
  else
    match insertChunksLoop H fs1 ino 0 (chunksOf chunk_size data) with
    | (fs2, .error e) => (fs2, .error e)
    | (fs2, .ok _) => (updateInodeSize fs2 ino data.length, .ok ())

/-- The row loop of `read_file_data`: rows arrive ordered by
`chunk_index`; with `verify` on, each chunk is checked before its bytes
are appended. -/
def readRowsLoop (H : Bytes → Nat) (verify : Bool) (ino : Nat) :
    List Chunk → Except Err Bytes
  | [] => .ok []
  | c :: rest =>
    if verify then
      match verify_checksum H c.data c.checksum ino c.chunk_index with
      | .error e => .error e
      | .ok _ =>
        match readRowsLoop H verify ino rest with
        | .error e => .error e
        | .ok bs => .ok (c.data ++ bs)
    else
      match readRowsLoop H verify ino rest with
      | .error e => .error e
      | .ok bs => .ok (c.data ++ bs)

/-- `read_file_data` (`file_handle.rs`). The final `UPDATE ... SET atime`
has its error ignored (`let _ = conn.execute(...)`); on a reader
connection `query_only=ON` makes it fail silently, so `queryOnly`
records which connection kind runs the call. -/
def read_file_data (H : Bytes → Nat) (fs : FS) (ino : Nat) (verify : Bool)
    (queryOnly : Bool) : FS × Except Err Bytes :=
  let rows := sortByKey (fun c => c.chunk_index)
    (fs.chunks.filter (fun c => c.ino = ino))
  match readRowsLoop H verify ino rows with
  | .error e => (fs, .error e)
  | .ok bs => (if queryOnly then fs else updateInodeAtime fs ino, .ok bs)

/-! ## Public filesystem operations (`agentfs_fs.rs`)

Each returns the database state reached when the operation returns (on
error, the effects of already-committed statements persist: `with_conn`
wraps no transaction), the shared dentry cache, and the result. -/

/-- `AgentFSFileSystem::read_file` (runs on a reader connection). -/
def read_file (H : Bytes → Nat) (fs : FS) (cache : Cache) (verify : Bool)
    (path : List Char) : FS × Cache × Except Err Bytes :=
  match resolve_path fs cache path with
  | (cache1, .error e) => (fs, cache1, .error e)
  | (cache1, .ok ino) =>
    match stat_ino fs ino with
    | .error e => (fs, cache1, .error e)
    | .ok st =>
      if !(mode_is_file st.mode) then (fs, cache1, .error (.notAFile path))
      else
        match read_file_data H fs ino verify true with
        | (fs1, r) => (fs1, cache1, r)

/-- `AgentFSFileSystem::write_file`. -/
def write_file (H : Bytes → Nat) (fs : FS) (cache : Cache) (chunk_size : Nat)
    (path : List Char) (data : Bytes) : FS × Cache × Except Err Unit :=
  match split_path path with
  | .error e => (fs, cache, .error e)
  | .ok (parent_path, name) =>
    match ensure_parents fs cache parent_path with
    | (fs1, cache1, .error e) => (fs1, cache1, .error e)
    | (fs1, cache1, .ok parent_ino) =>
      match lookupDentry fs1 parent_ino name with
      | some ino =>
        match stat_ino fs1 ino with
        | .error e => (fs1, cache1, .error e)
        | .ok st =>
          if !(mode_is_file st.mode) then (fs1, cache1, .error (.notAFile path))
          else
            match write_file_data H fs1 ino data chunk_size with
            | (fs2, r) => (fs2, cache1, r)
      | none =>
        match insertInode fs1 (S_IFREG ||| 0o644) 1 with
        | (fs2, ino) =>
          match insertDentry fs2 parent_ino name ino with
          | .error e => (fs2, cache1, .error e)
          | .ok fs3 =>
            match write_file_data H fs3 ino data chunk_size with
            | (fs4, r) => (fs4, cacheInsert cache1 parent_ino name ino, r)

/-- `AgentFSFileSystem::append_file`. -/
def append_file (H : Bytes → Nat) (fs : FS) (cache : Cache) (chunk_size : Nat)
    (verify : Bool) (path : List Char) (data : Bytes) :
    FS × Cache × Except Err Unit :=
  match split_path path with
  | .error e => (fs, cache, .error e)
  | .ok (parent_path, name) =>
    match ensure_parents fs cache parent_path with
    | (fs1, cache1, .error e) => (fs1, cache1, .error e)
    | (fs1, cache1, .ok parent_ino) =>
      match lookupDentry fs1 parent_ino name with
      | some ino =>
        match stat_ino fs1 ino with
        | .error e => (fs1, cache1, .error e)
        | .ok st =>
          if !(mode_is_file st.mode) then (fs1, cache1, .error (.notAFile path))
          else
            match read_file_data H fs1 ino verify false with
            | (fs2, .error e) => (fs2, cache1, .error e)
            | (fs2, .ok existing) =>
              match write_file_data H fs2 ino (existing ++ data) chunk_size with
              | (fs3, r) => (fs3, cache1, r)
      | none =>
        match insertInode fs1 (S_IFREG ||| 0o644) 1 with
        | (fs2, ino) =>
          match insertDentry fs2 parent_ino name ino with
          | .error e => (fs2, cache1, .error e)
          | .ok fs3 =>
            match write_file_data H fs3 ino data chunk_size with
            | (fs4, r) => (fs4, cacheInsert cache1 parent_ino name ino, r)

/-- `AgentFSFileSystem::mkdir`: just `ensure_parents` over the whole path. -/
def mkdir (fs : FS) (cache : Cache) (path : List Char) :
    FS × Cache × Except Err Unit :=
  match ensure_parents fs cache path with
  | (fs1, cache1, .error e) => (fs1, cache1, .error e)
  | (fs1, cache1, .ok _) => (fs1, cache1, .ok ())

/-- `SELECT nlink FROM fs_inode WHERE ino = ?` via `query_row` (errors
when the row is gone). -/
def selectNlink (fs : FS) (i : Nat) : Except Err Int :=
  match findInode fs i with
  | some r => .ok r.nlink
  | none => .error .sqliteErr

/-- `SELECT COUNT(*) FROM fs_dentry WHERE parent_ino = ?`. -/
def countChildren (fs : FS) (i : Nat) : Nat :=
  (fs.dentries.filter (fun d => d.parent_ino = i)).length

/-- `AgentFSFileSystem::remove_file`. -/
def remove_file (fs : FS) (cache : Cache) (path : List Char) :
    FS × Cache × Except Err Unit :=
  match split_path path with
  | .error e => (fs, cache, .error e)
  | .ok (parent_path, name) =>
    match resolve_path fs cache parent_path with
    | (cache1, .error e) => (fs, cache1, .error e)
    | (cache1, .ok parent_ino) =>
      match lookupDentry fs parent_ino name with
      | none => (fs, cache1, .error (.fileNotFound path))
      | some ino =>
        match stat_ino fs ino with
        | .error e => (fs, cache1, .error e)
        | .ok st =>
          if mode_is_dir st.mode then (fs, cache1, .error (.notAFile path))
          else
            let fs1 := deleteDentry fs parent_ino name
            let cache2 := cacheRemove cache1 parent_ino name
            let fs2 := decNlink fs1 ino
            match selectNlink fs2 ino with
            | .error e => (fs2, cache2, .error e)
            | .ok nl =>
              if nl ≤ 0 then
                let fs3 := deleteSymlink (deleteChunks fs2 ino) ino
                match deleteInode fs3 ino with
                | .error e => (fs3, cache2, .error e)
                | .ok fs4 => (fs4, cache2, .ok ())
              else (fs2, cache2, .ok ())

/-- `AgentFSFileSystem::rmdir`. -/
def rmdir (fs : FS) (cache : Cache) (path : List Char) :
    FS × Cache × Except Err Unit :=
  if path = ['/'] then (fs, cache, .error (.invalidPath path))
  else
    match split_path path with
    | .error e => (fs, cache, .error e)
    | .ok (parent_path, name) =>
      match resolve_path fs cache parent_path with
      | (cache1, .error e) => (fs, cache1, .error e)
      | (cache1, .ok parent_ino) =>
        match lookupDentry fs parent_ino name with
        | none => (fs, cache1, .error (.fileNotFound path))
        | some ino =>
          match stat_ino fs ino with
          | .error e => (fs, cache1, .error e)
          | .ok st =>
            if !(mode_is_dir st.mode) then
              (fs, cache1, .error (.notADirectory path))
            else if 0 < countChildren fs ino then
              (fs, cache1, .error (.dirNotEmpty path))
            else
              let fs1 := deleteDentry fs parent_ino name
              let cache2 := cacheRemove cache1 parent_ino name
              match deleteInode fs1 ino with
              | .error e => (fs1, cache2, .error e)
              | .ok fs2 => (fs2, cache2, .ok ())

/-- `AgentFSFileSystem::rename`. -/
def rename (fs : FS) (cache : Cache) (fromP toP : List Char) :
    FS × Cache × Except Err Unit :=
  match split_path fromP with
  | .error e => (fs, cache, .error e)
  | .ok (from_parent_path, from_name) =>
    match split_path toP with
    | .error e => (fs, cache, .error e)
    | .ok (to_parent_path, to_name) =>
      match resolve_path fs cache from_parent_path with
      | (cache1, .error e) => (fs, cache1, .error e)
      | (cache1, .ok from_parent_ino) =>
        match lookupDentry fs from_parent_ino from_name with
        | none => (fs, cache1, .error (.fileNotFound fromP))
        | some src_ino =>
          match ensure_parents fs cache1 to_parent_path with
          | (fs1, cache2, .error e) => (fs1, cache2, .error e)
          | (fs1, cache2, .ok to_parent_ino) =>
            match renameDest fs1 cache2 toP to_parent_ino to_name src_ino with
            | (fs2, cache3, .error e) => (fs2, cache3, .error e)
            | (fs2, cache3, .ok _) =>
              let fs3 := deleteDentry fs2 from_parent_ino from_name
              let cache4 := cacheRemove cache3 from_parent_ino from_name
              match insertDentry fs3 to_parent_ino to_name src_ino with
              | .error e => (fs3, cache4, .error e)
              | .ok fs4 =>
                (fs4, cacheInsert cache4 to_parent_ino to_name src_ino, .ok ())
where
  /-- The `if let Some(dest_ino) = existing_dest` block: replace an
  existing destination (POSIX overwrite semantics). -/
  renameDest (fs1 : FS) (cache2 : Cache) (toP : List Char)
      (to_parent_ino : Nat) (to_name : List Char) (src_ino : Nat) :
      FS × Cache × Except Err Unit :=
    match lookupDentry fs1 to_parent_ino to_name with
    | none => (fs1, cache2, .ok ())
    | some dest_ino =>
      match stat_ino fs1 dest_ino with
      | .error e => (fs1, cache2, .error e)
      | .ok dest_st =>
        match stat_ino fs1 src_ino with
        | .error e => (fs1, cache2, .error e)
        | .ok src_st =>
          if mode_is_dir dest_st.mode ∧ 0 < countChildren fs1 dest_ino then
            (fs1, cache2, .error (.dirNotEmpty toP))
          else if mode_is_dir src_st.mode ≠ mode_is_dir dest_st.mode then
            if mode_is_dir src_st.mode then
              (fs1, cache2, .error (.notADirectory toP))
            else
              (fs1, cache2, .error (.notAFile toP))
          else
            let fsA := deleteDentry fs1 to_parent_ino to_name
            let fsB := decNlink fsA dest_ino
            match selectNlink fsB dest_ino with
            | .error e => (fsB, cache2, .error e)
            | .ok nl =>
              if nl ≤ 0 then
                let fsC := deleteSymlink (deleteChunks fsB dest_ino) dest_ino
                match deleteInode fsC dest_ino with
                | .error e => (fsC, cache2, .error e)
                | .ok fsD => (fsD, cacheRemove cache2 to_parent_ino to_name, .ok ())
              else (fsB, cacheRemove cache2 to_parent_ino to_name, .ok ())

/-- `collect_descendants` (DFS). The Rust recursion has no depth bound
and diverges on a cyclic dentry graph; `fuel` bounds the depth, and
exhaustion (`noFuel`) models that divergence. -/
def collectDesc (fs : FS) : Nat → Nat → Except Err (List Nat)
  | 0, _ => .error .noFuel
  | fuel + 1, ino =>
    ((fs.dentries.filter (fun d => d.parent_ino = ino)).map (·.ino)).foldl
      (fun acc child =>
        match acc with
        | .error e => .error e
        | .ok l =>
          match collectDesc fs fuel child with
          | .error e => .error e
          | .ok sub => .ok (l ++ sub ++ [child]))
      (.ok [])

/-- Phase 1 of `remove_tree`: delete every dentry referencing the doomed
inodes, as parent and as child. -/
def removeTreePhase1 (fs : FS) (inos : List Nat) : FS :=
  inos.foldl (fun f i => deleteDentriesTo (deleteDentriesUnder f i) i) fs

/-- Phase 2 of `remove_tree`: delete data, symlinks and inodes. -/
def removeTreePhase2 : FS → List Nat → FS × Except Err Unit
  | fs, [] => (fs, .ok ())
  | fs, i :: rest =>
    let fs1 := deleteSymlink (deleteChunks fs i) i
    match deleteInode fs1 i with
    | .error e => (fs1, .error e)
    | .ok fs2 => removeTreePhase2 fs2 rest

/-- `AgentFSFileSystem::remove_tree`. The DFS depth can never exceed the
number of dentry rows on an acyclic state, so `dentries.length + 1` fuel
is exact there; a cyclic state exhausts it, standing for the divergence
of the Rust DFS. -/
def remove_tree (fs : FS) (cache : Cache) (path : List Char) :
    FS × Cache × Except Err Unit :=
  if path = ['/'] then (fs, cache, .error (.invalidPath path))
  else
    match split_path path with
    | .error e => (fs, cache, .error e)
    | .ok (parent_path, name) =>
      match resolve_path fs cache parent_path with
      | (cache1, .error e) => (fs, cache1, .error e)
      | (cache1, .ok parent_ino) =>
        match lookupDentry fs parent_ino name with
        | none => (fs, cache1, .error (.fileNotFound path))
        | some root_ino =>
          match collectDesc fs (fs.dentries.length + 1) root_ino with
          | .error e => (fs, cache1, .error e)
          | .ok descendants =>
            let all_inodes := descendants ++ [root_ino]
            let fs1 := removeTreePhase1 fs all_inodes
            match removeTreePhase2 fs1 all_inodes with
            | (fs2, .error e) => (fs2, cache1, .error e)
            | (fs2, .ok _) => (fs2, [], .ok ())

/-! ## Glob search (`glob_to_sql`, `reconstruct_path`, `search`) -/

/-- `glob_to_sql` (`agentfs_fs.rs`): `*`→`%`, `?`→`_`, and a backslash is
put in front of literal `%` and `_`. -/
def glob_to_sql : List Char → List Char
  | [] => []
  | ch :: rest =>
    (if ch = '*' then ['%']
     else if ch = '?' then ['_']
     else if ch = '%' then ['\\', '%']
     else if ch = '_' then ['\\', '_']
     else [ch]) ++ glob_to_sql rest

/-- ASCII lower-casing, the case folding SQLite's built-in `LIKE`
applies (it is case-insensitive for ASCII only). -/
def asciiLower (c : Char) : Char :=
  if 'A' ≤ c ∧ c ≤ 'Z' then Char.ofNat (c.toNat + 32) else c

/-- SQLite's `LIKE` operator as documented: `%` matches any sequence,
`_` matches exactly one character, comparison is ASCII
case-insensitive, and — because the query in `search` has no `ESCAPE`
clause — every other character, backslash included, matches literally. -/
def likeMatch : List Char → List Char → Bool
  | [], s => s.isEmpty
  | c :: p, s =>
    if c = '%' then
      likeMatch p s ||
        (match s with
         | [] => false
         | _ :: s2 => likeMatch (c :: p) s2)
    else
      match s with
      | [] => false
      | ch :: s2 =>
        if c = '_' then likeMatch p s2
        else asciiLower c = asciiLower ch && likeMatch p s2
termination_by p s => (p.length, s.length)

/-- Modelled from the spec: the glob semantics the spec ascribes to
`search` — `*` matches any sequence of characters, `?` matches exactly
one character, everything else matches itself (up to LIKE's ASCII case
folding). This is the specification side of the refinement theorem; the
code side is `likeMatch ∘ glob_to_sql`. -/
def globMatch : List Char → List Char → Bool
  | [], s => s.isEmpty
  | c :: p, s =>
    if c = '*' then
      globMatch p s ||
        (match s with
         | [] => false
         | _ :: s2 => globMatch (c :: p) s2)
    else
      match s with
      | [] => false
      | ch :: s2 =>
        if c = '?' then globMatch p s2
        else asciiLower c = asciiLower ch && globMatch p s2
termination_by p s => (p.length, s.length)

/-- `SELECT ... FROM fs_dentry WHERE ino = ? LIMIT 1`. -/
def findDentryByChild (fs : FS) (i : Nat) : Option Dentry :=
  fs.dentries.find? (fun d => d.ino = i)

/-- The `while current_ino != ROOT_INO` loop of `reconstruct_path`,
collecting names bottom-up; `fuel` bounds the walk (the Rust loop
diverges on a parent cycle). -/
def walkUp (fs : FS) : Nat → Nat → Except Err (List (List Char))
  | 0, cur => if cur = ROOT_INO then .ok [] else .error .noFuel
  | fuel + 1, cur =>
    if cur = ROOT_INO then .ok []
    else
      match findDentryByChild fs cur with
      | none => .error (.fileNotFound [])
      | some d =>
        match walkUp fs fuel d.parent_ino with
        | .error e => .error e
        | .ok l => .ok (d.name :: l)

/-- `reconstruct_path` (`agentfs_fs.rs`). -/
def reconstruct_path (fs : FS) (ino parent_ino : Nat) : Except Err (List Char) :=
  match fs.dentries.find? (fun d => d.parent_ino = parent_ino && d.ino = ino) with
  | none => .error (.fileNotFound [])
  | some d =>
    match walkUp fs (fs.dentries.length + 1) parent_ino with
    | .error e => .error e
    | .ok ups => .ok ('/' :: joinComps ((d.name :: ups).reverse))

/-- A `SearchResult` row (`filesystem/mod.rs`). -/
structure SearchResult where
  path : List Char
  ino : Nat
  is_dir : Bool
  size : Nat
deriving Repr, DecidableEq

/-- The rows of `SELECT d.ino, d.name, d.parent_ino, i.mode, i.size FROM
fs_dentry d JOIN fs_inode i ON d.ino = i.ino WHERE d.name LIKE ?1`. -/
def searchRows (fs : FS) (sqlPattern : List Char) :
    List (Nat × List Char × Nat × Nat × Nat) :=
  fs.dentries.filterMap (fun d =>
    match findInode fs d.ino with
    | some r =>
      if likeMatch sqlPattern d.name then
        some (d.ino, d.name, d.parent_ino, r.mode, r.size)
      else none
    | none => none)

/-- The result loop of `search`: reconstruct each row's path (an error
aborts the whole call). -/
def searchResLoop (fs : FS) :
    List (Nat × List Char × Nat × Nat × Nat) → Except Err (List SearchResult)
  | [] => .ok []
  | (ino, _, parent_ino, mode, size) :: rest =>
    match reconstruct_path fs ino parent_ino with
    | .error e => .error e
    | .ok path =>
      match searchResLoop fs rest with
      | .error e => .error e
      | .ok rs => .ok (⟨path, ino, mode_is_dir mode, size⟩ :: rs)

/-- `AgentFSFileSystem::search` (runs on a reader connection; no state
change, no cache use). -/
def search (fs : FS) (pattern : List Char) : Except Err (List SearchResult) :=
  searchResLoop fs (searchRows fs (glob_to_sql pattern))

/-! ## Referential integrity (claim C2)

The invariant of §8.2 of the spec: every `fs_dentry.ino` and every
`fs_data.ino` names an existing `fs_inode` row. -/

/-- Referential integrity of the filesystem tables. -/
def RefInt (fs : FS) : Prop :=
  (∀ d ∈ fs.dentries, inodeExists fs d.ino = true) ∧
  (∀ c ∈ fs.chunks, inodeExists fs c.ino = true)

instance (fs : FS) : Decidable (RefInt fs) := by
  unfold RefInt
  infer_instance

theorem find_isSome_map {α : Type} (l : List α) (f : α → α) (p : α → Bool)
    (hf : ∀ a, p (f a) = p a) :
    ((l.map f).find? p).isSome = (l.find? p).isSome := by
  induction l with
  | nil => rfl
  | cons a as ih =>
    simp only [List.map_cons, List.find?]
    rw [hf a]
    cases hp : p a
    · simpa using ih
    · simp

theorem find_isSome_filter {α : Type} (l : List α) (p q : α → Bool)
    (h : ∀ a, p a = true → q a = true) :
    ((l.filter q).find? p).isSome = (l.find? p).isSome := by
  induction l with
  | nil => rfl
  | cons a as ih =>
    simp only [List.filter]
    cases hq : q a
    · have hp : p a = false := by
        cases hpa : p a
        · rfl
        · rw [h a hpa] at hq; exact absurd hq (by simp)
      simp only [List.find?, hp]
      exact ih
    · simp only [List.find?]
      cases hp : p a
      · simpa using ih
      · simp

theorem find_isSome_append_left {α : Type} (l l2 : List α) (p : α → Bool)
    (h : (l.find? p).isSome = true) :
    ((l ++ l2).find? p).isSome = true := by
  induction l with
  | nil => simp [List.find?] at h
  | cons a as ih =>
    simp only [List.cons_append, List.find?] at h ⊢
    cases hp : p a
    · rw [hp] at h; simpa using ih (by simpa using h)
    · simp

theorem inodeExists_map_fields (fs : FS) (f : Inode → Inode)
    (hf : ∀ r, (f r).ino = r.ino) (i : Nat)
    (fs2 : FS) (heq : fs2.inodes = fs.inodes.map f) :
    inodeExists fs2 i = inodeExists fs i := by
  unfold inodeExists findInode
  rw [heq]
  rw [find_isSome_map fs.inodes f (fun r => r.ino = i) (fun a => by simp [hf a])]

theorem RefInt_updateInodeSize (fs : FS) (i sz : Nat) (h : RefInt fs) :
    RefInt (updateInodeSize fs i sz) := by
  obtain ⟨h1, h2⟩ := h
  constructor
  · intro d hd
    rw [inodeExists_map_fields fs _ (fun r => by split <;> rfl) d.ino _ rfl]
    exact h1 d hd
  · intro c hc
    rw [inodeExists_map_fields fs _ (fun r => by split <;> rfl) c.ino _ rfl]
    exact h2 c hc

theorem RefInt_updateInodeAtime (fs : FS) (i : Nat) (h : RefInt fs) :
    RefInt (updateInodeAtime fs i) := by
  obtain ⟨h1, h2⟩ := h
  constructor
  · intro d hd
    rw [inodeExists_map_fields fs _ (fun r => by split <;> rfl) d.ino _ rfl]
    exact h1 d hd
  · intro c hc
    rw [inodeExists_map_fields fs _ (fun r => by split <;> rfl) c.ino _ rfl]
    exact h2 c hc

theorem RefInt_decNlink (fs : FS) (i : Nat) (h : RefInt fs) :
    RefInt (decNlink fs i) := by
  obtain ⟨h1, h2⟩ := h
  constructor
  · intro d hd
    rw [inodeExists_map_fields fs _ (fun r => by split <;> rfl) d.ino _ rfl]
    exact h1 d hd
  · intro c hc
    rw [inodeExists_map_fields fs _ (fun r => by split <;> rfl) c.ino _ rfl]
    exact h2 c hc

theorem RefInt_deleteDentry (fs : FS) (p : Nat) (n : List Char) (h : RefInt fs) :
    RefInt (deleteDentry fs p n) := by
  obtain ⟨h1, h2⟩ := h
  exact ⟨fun d hd => h1 d (List.mem_of_mem_filter hd), h2⟩

theorem RefInt_deleteDentriesUnder (fs : FS) (p : Nat) (h : RefInt fs) :
    RefInt (deleteDentriesUnder fs p) := by
  obtain ⟨h1, h2⟩ := h
  exact ⟨fun d hd => h1 d (List.mem_of_mem_filter hd), h2⟩

theorem RefInt_deleteDentriesTo (fs : FS) (i : Nat) (h : RefInt fs) :
    RefInt (deleteDentriesTo fs i) := by
  obtain ⟨h1, h2⟩ := h
  exact ⟨fun d hd => h1 d (List.mem_of_mem_filter hd), h2⟩

theorem RefInt_deleteChunks (fs : FS) (i : Nat) (h : RefInt fs) :
    RefInt (deleteChunks fs i) := by
  obtain ⟨h1, h2⟩ := h
  exact ⟨h1, fun c hc => h2 c (List.mem_of_mem_filter hc)⟩

theorem RefInt_deleteSymlink (fs : FS) (i : Nat) (h : RefInt fs) :
    RefInt (deleteSymlink fs i) := by
  obtain ⟨h1, h2⟩ := h
  exact ⟨h1, h2⟩

theorem inodeExists_append (fs : FS) (fs2 : FS) (rows : List Inode)
    (heq : fs2.inodes = fs.inodes ++ rows) (i : Nat)
    (h : inodeExists fs i = true) : inodeExists fs2 i = true := by
  unfold inodeExists findInode at h ⊢
  rw [heq]
  exact find_isSome_append_left _ _ _ h

theorem RefInt_insertInode (fs : FS) (m : Nat) (nl : Int) (h : RefInt fs) :
    RefInt (insertInode fs m nl).1 := by
  obtain ⟨h1, h2⟩ := h
  constructor
  · intro d hd
    exact inodeExists_append fs _ _ rfl d.ino (h1 d hd)
  · intro c hc
    exact inodeExists_append fs _ _ rfl c.ino (h2 c hc)

theorem RefInt_insertDentry (fs fs2 : FS) (p : Nat) (n : List Char) (i : Nat)
    (h : RefInt fs) (hok : insertDentry fs p n i = .ok fs2) : RefInt fs2 := by
  obtain ⟨h1, h2⟩ := h
  unfold insertDentry at hok
  split at hok
  · exact absurd hok (by simp)
  · split at hok
    · exact absurd hok (by simp)
    · next hfk =>
      simp only [Except.ok.injEq] at hok
      subst hok
      simp only [Bool.not_eq_true', Bool.and_eq_false_iff] at hfk
      constructor
      · intro d hd
        rcases List.mem_append.mp hd with hm | hm
        · exact h1 d hm
        · simp only [List.mem_singleton] at hm
          subst hm
          show inodeExists fs i = true
          by_contra hcon
          exact hfk (Or.inr (by simpa using hcon))
      · exact h2

theorem RefInt_insertChunk (fs fs2 : FS) (i idx : Nat) (data : Bytes)
    (ck : Nat) (h : RefInt fs) (hok : insertChunk fs i idx data ck = .ok fs2) :
    RefInt fs2 := by
  obtain ⟨h1, h2⟩ := h
  unfold insertChunk at hok
  split at hok
  · exact absurd hok (by simp)
  · split at hok
    · exact absurd hok (by simp)
    · next hfk =>
      simp only [Except.ok.injEq] at hok
      subst hok
      simp only [Bool.not_eq_true'] at hfk
      constructor
      · exact h1
      · intro c hc
        rcases List.mem_append.mp hc with hm | hm
        · exact h2 c hm
        · simp only [List.mem_singleton] at hm
          subst hm
          simpa using hfk

theorem RefInt_deleteInode (fs fs2 : FS) (i : Nat) (h : RefInt fs)
    (hok : deleteInode fs i = .ok fs2) : RefInt fs2 := by
  obtain ⟨h1, h2⟩ := h
  unfold deleteInode at hok
  split at hok
  · exact absurd hok (by simp)
  · next href =>
    simp only [Except.ok.injEq] at hok
    subst hok
    simp only [List.any_eq_true, not_exists, not_and] at href
    constructor
    · intro d hd
      have hdi : d.ino ≠ i := by
        intro hcon
        have := href d hd
        simp [hcon] at this
      unfold inodeExists findInode
      simp only
      rw [find_isSome_filter fs.inodes (fun r => r.ino = d.ino)
        (fun r => !(r.ino = i)) (fun r hr => by
          simp only [decide_eq_true_eq] at hr
          simp [hr, hdi])]
      exact h1 d hd
    · intro c hc
      have hci : c.ino ≠ i := by
        intro hcon
        have := List.mem_filter.mp hc
        simp [hcon] at this
      have hcm : c ∈ fs.chunks := List.mem_of_mem_filter hc
      unfold inodeExists findInode
      simp only
      rw [find_isSome_filter fs.inodes (fun r => r.ino = c.ino)
        (fun r => !(r.ino = i)) (fun r hr => by
          simp only [decide_eq_true_eq] at hr
          simp [hr, hci])]
      exact h2 c hcm

theorem RefInt_insertChunksLoop (H : Bytes → Nat) (fs : FS) (ino i : Nat)
    (cs : List Bytes) (h : RefInt fs) :
    RefInt (insertChunksLoop H fs ino i cs).1 := by
  induction cs generalizing fs i with
  | nil => exact h
  | cons c rest ih =>
    rw [insertChunksLoop]
    cases hins : insertChunk fs ino i c (compute_checksum H c) with
    | error e => exact h
    | ok fs1 => exact ih fs1 (i + 1) (RefInt_insertChunk fs fs1 ino i c _ h hins)

theorem RefInt_write_file_data (H : Bytes → Nat) (fs : FS) (ino : Nat)
    (data : Bytes) (chunk_size : Nat) (h : RefInt fs) :
    RefInt (write_file_data H fs ino data chunk_size).1 := by
  unfold write_file_data
  have h1 : RefInt (deleteChunks fs ino) := RefInt_deleteChunks fs ino h
  split
  · exact RefInt_updateInodeSize _ ino 0 h1
  · rcases hloop : insertChunksLoop H (deleteChunks fs ino) ino 0
      (chunksOf chunk_size data) with ⟨fs2, r⟩
    have h2 : RefInt fs2 := by
      have := RefInt_insertChunksLoop H (deleteChunks fs ino) ino 0
        (chunksOf chunk_size data) h1
      rwa [hloop] at this
    cases r with
    | error e => simpa [hloop] using h2
    | ok u => simpa [hloop] using RefInt_updateInodeSize fs2 ino data.length h2

theorem RefInt_read_file_data (H : Bytes → Nat) (fs : FS) (ino : Nat)
    (verify queryOnly : Bool) (h : RefInt fs) :
    RefInt (read_file_data H fs ino verify queryOnly).1 := by
  rw [read_file_data]
  split
  · exact h
  · split
    · exact h
    · exact RefInt_updateInodeAtime fs ino h

theorem RefInt_ensureLoop (fs : FS) (cache : Cache) (cur : Nat)
    (comps : List (List Char)) (h : RefInt fs) :
    RefInt (ensureLoop fs cache cur comps).1 := by
  induction comps generalizing fs cache cur with
  | nil => exact h
  | cons c rest ih =>
    rw [ensureLoop]
    split
    · exact ih fs cache _ h
    · split
      · exact ih fs _ _ h
      · split
        next fs1 newIno hins =>
          have h1 : RefInt fs1 := by
            have hh := RefInt_insertInode fs (S_IFDIR ||| 0o755) 2 h
            rwa [hins] at hh
          split
          · exact h1
          · next fs2 hden =>
            exact ih fs2 _ newIno (RefInt_insertDentry fs1 fs2 cur c newIno h1 hden)

theorem RefInt_ensure_parents (fs : FS) (cache : Cache) (path : List Char)
    (h : RefInt fs) : RefInt (ensure_parents fs cache path).1 := by
  unfold ensure_parents
  split
  · exact h
  · exact RefInt_ensureLoop fs cache ROOT_INO (pathComps path) h

theorem RefInt_removeTreePhase1 (fs : FS) (inos : List Nat) (h : RefInt fs) :
    RefInt (removeTreePhase1 fs inos) := by
  unfold removeTreePhase1
  induction inos generalizing fs with
  | nil => exact h
  | cons i rest ih =>
    rw [List.foldl_cons]
    exact ih _ (RefInt_deleteDentriesTo _ i (RefInt_deleteDentriesUnder fs i h))

theorem RefInt_removeTreePhase2 (fs : FS) (inos : List Nat) (h : RefInt fs) :
    RefInt (removeTreePhase2 fs inos).1 := by
  induction inos generalizing fs with
  | nil => exact h
  | cons i rest ih =>
    rw [removeTreePhase2]
    have h1 : RefInt (deleteSymlink (deleteChunks fs i) i) :=
      RefInt_deleteSymlink _ i (RefInt_deleteChunks fs i h)
    cases hdel : deleteInode (deleteSymlink (deleteChunks fs i) i) i with
    | error e => exact h1
    | ok fs2 => exact ih fs2 (RefInt_deleteInode _ fs2 i h1 hdel)



theorem RefInt_write_file (H : Bytes → Nat) (fs : FS) (cache : Cache)
    (chunk_size : Nat) (path : List Char) (data : Bytes) (h : RefInt fs) :
    RefInt (write_file H fs cache chunk_size path data).1 := by
  rw [write_file]
  split
  · exact h
  · next parent_path name hsp =>
    have hens0 := RefInt_ensure_parents fs cache parent_path h
    split
    · next fs1 cache1 e hens =>
      rw [hens] at hens0
      exact hens0
    · next fs1 cache1 parent_ino hens =>
      rw [hens] at hens0
      split
      · next ino hlk =>
        split
        · exact hens0
        · next st hst =>
          split
          · exact hens0
          · split
            next fs2 r hw =>
              have hh := RefInt_write_file_data H fs1 ino data chunk_size hens0
              rw [hw] at hh
              exact hh
      · split
        next fs2 ino hins =>
          have h2 : RefInt fs2 := by
            have hh := RefInt_insertInode fs1 (S_IFREG ||| 0o644) 1 hens0
            rw [hins] at hh
            exact hh
          split
          · exact h2
          · next fs3 hden =>
            have h3 : RefInt fs3 :=
              RefInt_insertDentry fs2 fs3 parent_ino name ino h2 hden
            split
            next fs4 r hw =>
              have hh := RefInt_write_file_data H fs3 ino data chunk_size h3
              rw [hw] at hh
              exact hh

theorem RefInt_append_file (H : Bytes → Nat) (fs : FS) (cache : Cache)
    (chunk_size : Nat) (verify : Bool) (path : List Char) (data : Bytes)
    (h : RefInt fs) :
    RefInt (append_file H fs cache chunk_size verify path data).1 := by
  rw [append_file]
  split
  · exact h
  · next parent_path name hsp =>
    have hens0 := RefInt_ensure_parents fs cache parent_path h
    split
    · next fs1 cache1 e hens =>
      rw [hens] at hens0
      exact hens0
    · next fs1 cache1 parent_ino hens =>
      rw [hens] at hens0
      split
      · next ino hlk =>
        split
        · exact hens0
        · next st hst =>
          split
          · exact hens0
          · split
            · next fs2 e hr =>
              have hh := RefInt_read_file_data H fs1 ino verify false hens0
              rw [hr] at hh
              exact hh
            · next fs2 existing hr =>
              have h2 : RefInt fs2 := by
                have hh := RefInt_read_file_data H fs1 ino verify false hens0
                rw [hr] at hh
                exact hh
              split
              next fs3 r hw =>
                have hh := RefInt_write_file_data H fs2 ino (existing ++ data)
                  chunk_size h2
                rw [hw] at hh
                exact hh
      · split
        next fs2 ino hins =>
          have h2 : RefInt fs2 := by
            have hh := RefInt_insertInode fs1 (S_IFREG ||| 0o644) 1 hens0
            rw [hins] at hh
            exact hh
          split
          · exact h2
          · next fs3 hden =>
            have h3 : RefInt fs3 :=
              RefInt_insertDentry fs2 fs3 parent_ino name ino h2 hden
            split
            next fs4 r hw =>
              have hh := RefInt_write_file_data H fs3 ino data chunk_size h3
              rw [hw] at hh
              exact hh

theorem RefInt_mkdir (fs : FS) (cache : Cache) (path : List Char)
    (h : RefInt fs) : RefInt (mkdir fs cache path).1 := by
  rw [mkdir]
  have hens0 := RefInt_ensure_parents fs cache path h
  split
  · next fs1 cache1 e hens =>
    rw [hens] at hens0
    exact hens0
  · next fs1 cache1 i hens =>
    rw [hens] at hens0
    exact hens0

theorem RefInt_remove_file (fs : FS) (cache : Cache) (path : List Char)
    (h : RefInt fs) : RefInt (remove_file fs cache path).1 := by
  simp only [remove_file]
  split
  · exact h
  · next parent_path name hsp =>
    split
    · exact h
    · next cache1 parent_ino hres =>
      split
      · exact h
      · next ino hlk =>
        split
        · exact h
        · next st hst =>
          split
          · exact h
          · have h2 : RefInt (decNlink (deleteDentry fs parent_ino name) ino) :=
              RefInt_decNlink _ ino (RefInt_deleteDentry fs parent_ino name h)
            split
            · exact h2
            · split
              · have h3 : RefInt (deleteSymlink
                    (deleteChunks (decNlink (deleteDentry fs parent_ino name) ino)
                      ino) ino) :=
                  RefInt_deleteSymlink _ ino (RefInt_deleteChunks _ ino h2)
                split
                · exact h3
                · next fs4 hdel =>
                  exact RefInt_deleteInode _ fs4 ino h3 hdel
              · exact h2

theorem RefInt_rmdir (fs : FS) (cache : Cache) (path : List Char)
    (h : RefInt fs) : RefInt (rmdir fs cache path).1 := by
  simp only [rmdir]
  split
  · exact h
  · split
    · exact h
    · next parent_path name hsp =>
      split
      · exact h
      · next cache1 parent_ino hres =>
        split
        · exact h
        · next ino hlk =>
          split
          · exact h
          · next st hst =>
            split
            · exact h
            · split
              · exact h
              · have h1 : RefInt (deleteDentry fs parent_ino name) :=
                  RefInt_deleteDentry fs parent_ino name h
                split
                · exact h1
                · next fs2 hdel =>
                  exact RefInt_deleteInode _ fs2 ino h1 hdel

theorem RefInt_renameDest (fs1 : FS) (cache2 : Cache) (toP : List Char)
    (to_parent_ino : Nat) (to_name : List Char) (src_ino : Nat)
    (h : RefInt fs1) :
    RefInt (rename.renameDest fs1 cache2 toP to_parent_ino to_name src_ino).1 := by
  simp only [rename.renameDest]
  split
  · exact h
  · next dest_ino hlk =>
    split
    · exact h
    · next dest_st hds =>
      split
      · exact h
      · next src_st hss =>
        split
        · exact h
        · split
          · split
            · exact h
            · exact h
          · have hB : RefInt (decNlink (deleteDentry fs1 to_parent_ino to_name)
                dest_ino) :=
              RefInt_decNlink _ dest_ino
                (RefInt_deleteDentry fs1 to_parent_ino to_name h)
            split
            · exact hB
            · split
              · have hC : RefInt (deleteSymlink (deleteChunks
                    (decNlink (deleteDentry fs1 to_parent_ino to_name) dest_ino)
                    dest_ino) dest_ino) :=
                  RefInt_deleteSymlink _ dest_ino (RefInt_deleteChunks _ dest_ino hB)
                split
                · exact hC
                · next fsD hdel =>
                  exact RefInt_deleteInode _ fsD dest_ino hC hdel
              · exact hB

theorem RefInt_rename (fs : FS) (cache : Cache) (fromP toP : List Char)
    (h : RefInt fs) : RefInt (rename fs cache fromP toP).1 := by
  simp only [rename]
  split
  · exact h
  · next from_parent_path from_name hspf =>
    split
    · exact h
    · next to_parent_path to_name hspt =>
      split
      · exact h
      · next cache1 from_parent_ino hres =>
        split
        · exact h
        · next src_ino hlk =>
          have hens0 := RefInt_ensure_parents fs cache1 to_parent_path h
          split
          · next fs1 cache2 e hens =>
            rw [hens] at hens0
            exact hens0
          · next fs1 cache2 to_parent_ino hens =>
            rw [hens] at hens0
            have hdest0 := RefInt_renameDest fs1 cache2 toP to_parent_ino
              to_name src_ino hens0
            split
            · next fs2 cache3 e hdest =>
              rw [hdest] at hdest0
              exact hdest0
            · next fs2 cache3 u hdest =>
              rw [hdest] at hdest0
              have h3 : RefInt (deleteDentry fs2 from_parent_ino from_name) :=
                RefInt_deleteDentry fs2 from_parent_ino from_name hdest0
              split
              · exact h3
              · next fs4 hins =>
                exact RefInt_insertDentry _ fs4 to_parent_ino to_name src_ino
                  h3 hins

theorem RefInt_remove_tree (fs : FS) (cache : Cache) (path : List Char)
    (h : RefInt fs) : RefInt (remove_tree fs cache path).1 := by
  simp only [remove_tree]
  split
  · exact h
  · split
    · exact h
    · next parent_path name hsp =>
      split
      · exact h
      · next cache1 parent_ino hres =>
        split
        · exact h
        · next root_ino hlk =>
          split
          · exact h
          · next descendants hcol =>
            have h1 : RefInt (removeTreePhase1 fs (descendants ++ [root_ino])) :=
              RefInt_removeTreePhase1 fs _ h
            have h2 := RefInt_removeTreePhase2
              (removeTreePhase1 fs (descendants ++ [root_ino]))
              (descendants ++ [root_ino]) h1
            split
            · next fs2 e hph =>
              rw [hph] at h2
              exact h2
            · next fs2 u hph =>
              rw [hph] at h2
              exact h2

/-! ## Resolution correctness (claim C1 infrastructure) -/

/-- Pure dentry-table walk: path resolution disregarding the cache. -/
def walkDB (fs : FS) : Nat → List (List Char) → Option Nat
  | cur, [] => some cur
  | cur, c :: rest =>
    match lookupDentry fs cur c with
    | some i => walkDB fs i rest
    | none => none

/-- Cache coherence: every cached `(parent, name) → ino` mirrors the
dentry table. -/
def CacheOK (fs : FS) (cache : Cache) : Prop :=
  ∀ e ∈ cache, lookupDentry fs e.1 e.2.1 = some e.2.2

/-- One operation extends another state purely by appending inode and
dentry rows and leaving chunks untouched. -/
def FSExt (fs fs' : FS) : Prop :=
  (∃ extra, fs'.dentries = fs.dentries ++ extra) ∧
  (∃ extra, fs'.inodes = fs.inodes ++ extra) ∧
  fs'.chunks = fs.chunks

theorem FSExt_refl (fs : FS) : FSExt fs fs :=
  ⟨⟨[], by simp⟩, ⟨[], by simp⟩, rfl⟩

theorem FSExt_trans {fs1 fs2 fs3 : FS} (h1 : FSExt fs1 fs2) (h2 : FSExt fs2 fs3) :
    FSExt fs1 fs3 := by
  obtain ⟨⟨d1, hd1⟩, ⟨i1, hi1⟩, hc1⟩ := h1
  obtain ⟨⟨d2, hd2⟩, ⟨i2, hi2⟩, hc2⟩ := h2
  exact ⟨⟨d1 ++ d2, by rw [hd2, hd1, List.append_assoc]⟩,
    ⟨i1 ++ i2, by rw [hi2, hi1, List.append_assoc]⟩, by rw [hc2, hc1]⟩

theorem find_some_append {α : Type} (l l2 : List α) (p : α → Bool) (a : α)
    (h : l.find? p = some a) : (l ++ l2).find? p = some a := by
  induction l with
  | nil => simp [List.find?] at h
  | cons x xs ih =>
    simp only [List.cons_append, List.find?] at h ⊢
    cases hp : p x
    · rw [hp] at h; exact ih h
    · rwa [hp] at h

theorem lookup_mono {fs fs' : FS} (hext : FSExt fs fs') (p : Nat) (n : List Char)
    (i : Nat) (h : lookupDentry fs p n = some i) :
    lookupDentry fs' p n = some i := by
  unfold lookupDentry at h ⊢
  obtain ⟨⟨extra, hd⟩, _, _⟩ := hext
  rw [hd]
  rcases hf : fs.dentries.find? (fun d => d.parent_ino = p && d.name = n) with _ | d
  · rw [hf] at h; simp at h
  · rw [hf] at h
    rw [find_some_append _ _ _ _ hf]
    exact h

theorem inodeExists_mono {fs fs' : FS} (hext : FSExt fs fs') (i : Nat)
    (h : inodeExists fs i = true) : inodeExists fs' i = true := by
  obtain ⟨_, ⟨extra, hi⟩, _⟩ := hext
  exact inodeExists_append fs fs' extra hi i h

theorem walkDB_mono {fs fs' : FS} (hext : FSExt fs fs') (cur : Nat)
    (comps : List (List Char)) (r : Nat) (h : walkDB fs cur comps = some r) :
    walkDB fs' cur comps = some r := by
  induction comps generalizing cur with
  | nil => exact h
  | cons c rest ih =>
    rw [walkDB] at h ⊢
    rcases hl : lookupDentry fs cur c with _ | i
    · rw [hl] at h; simp at h
    · rw [hl] at h
      rw [lookup_mono hext cur c i hl]
      exact ih i h

theorem CacheOK_mono {fs fs' : FS} {cache : Cache} (hext : FSExt fs fs')
    (h : CacheOK fs cache) : CacheOK fs' cache := by
  intro e he
  exact lookup_mono hext e.1 e.2.1 e.2.2 (h e he)

theorem CacheOK_same_dentries {fs fs' : FS} {cache : Cache}
    (heq : fs'.dentries = fs.dentries) (h : CacheOK fs cache) :
    CacheOK fs' cache := by
  intro e he
  unfold lookupDentry
  rw [heq]
  exact h e he

theorem CacheOK_insert {fs : FS} {cache : Cache} (p : Nat) (n : List Char)
    (i : Nat) (h : CacheOK fs cache) (hfact : lookupDentry fs p n = some i) :
    CacheOK fs (cacheInsert cache p n i) := by
  intro e he
  unfold cacheInsert at he
  rcases List.mem_append.mp he with hm | hm
  · split at hm
    · simp at hm
    · exact h e (List.mem_of_mem_filter hm)
  · simp only [List.mem_singleton] at hm
    subst hm
    exact hfact

theorem CacheOK_remove {fs : FS} {cache : Cache} (p : Nat) (n : List Char)
    (h : CacheOK fs cache) : CacheOK fs (cacheRemove cache p n) := by
  intro e he
  exact h e (List.mem_of_mem_filter he)

theorem lookup_ino_exists {fs : FS} (hri : RefInt fs) (p : Nat) (n : List Char)
    (i : Nat) (h : lookupDentry fs p n = some i) : inodeExists fs i = true := by
  unfold lookupDentry at h
  rcases hf : fs.dentries.find? (fun d => d.parent_ino = p && d.name = n) with _ | d
  · rw [hf] at h; exact Option.noConfusion h
  · rw [hf] at h
    simp only [Option.map_some', Option.some.injEq] at h
    subst h
    exact hri.1 d (List.mem_of_find?_eq_some hf)

/-- Under a coherent cache, `resolveLoop` computes exactly the pure walk
and keeps the cache coherent. -/
theorem resolveLoop_spec (fs : FS) (orig : List (List Char)) (cache : Cache)
    (cur : Nat) (comps : List (List Char)) (hok : CacheOK fs cache) :
    CacheOK fs (resolveLoop fs orig cache cur comps).1 ∧
    (resolveLoop fs orig cache cur comps).2 =
      (match walkDB fs cur comps with
       | some i => .ok i
       | none => .error (.fileNotFound ('/' :: joinComps orig))) := by
  induction comps generalizing cache cur with
  | nil => exact ⟨hok, rfl⟩
  | cons c rest ih =>
    rw [resolveLoop, walkDB]
    rcases hcg : cacheGet cache cur c with _ | i
    · rcases hl : lookupDentry fs cur c with _ | i
      · exact ⟨hok, rfl⟩
      · exact ih (cacheInsert cache cur c i) i (CacheOK_insert cur c i hok hl)
    · have hl : lookupDentry fs cur c = some i := by
        unfold cacheGet at hcg
        rcases hf : cache.find? (fun e => e.1 = cur && e.2.1 = c) with _ | e
        · rw [hf] at hcg; exact Option.noConfusion hcg
        · rw [hf] at hcg
          simp only [Option.map_some', Option.some.injEq] at hcg
          have he := List.mem_of_find?_eq_some hf
          have hp := List.find?_some hf
          simp only [Bool.and_eq_true, decide_eq_true_eq] at hp
          have hq := hok e he
          rw [hp.1, hp.2] at hq
          rw [← hcg]
          exact hq
      rw [hl]
      exact ih cache i hok

theorem cacheGet_lookup {fs : FS} {cache : Cache} (hok : CacheOK fs cache)
    {p : Nat} {n : List Char} {i : Nat} (h : cacheGet cache p n = some i) :
    lookupDentry fs p n = some i := by
  unfold cacheGet at h
  rcases hf : cache.find? (fun e => e.1 = p && e.2.1 = n) with _ | e
  · rw [hf] at h; exact Option.noConfusion h
  · rw [hf] at h
    simp only [Option.map_some', Option.some.injEq] at h
    have he := List.mem_of_find?_eq_some hf
    have hp := List.find?_some hf
    simp only [Bool.and_eq_true, decide_eq_true_eq] at hp
    have hq := hok e he
    rw [hp.1, hp.2] at hq
    rw [← h]
    exact hq

theorem find_isSome_append_self {α : Type} (l : List α) (a : α) (p : α → Bool)
    (hp : p a = true) : ((l ++ [a]).find? p).isSome = true := by
  induction l with
  | nil => simp [List.find?, hp]
  | cons x xs ih =>
    simp only [List.cons_append, List.find?]
    cases hx : p x
    · exact ih
    · simp

theorem find_none_append {α : Type} (l : List α) (a : α) (p : α → Bool)
    (hl : l.find? p = none) (hp : p a = true) :
    (l ++ [a]).find? p = some a := by
  induction l with
  | nil => simp [List.find?, hp]
  | cons x xs ih =>
    simp only [List.find?] at hl
    cases hx : p x
    · rw [hx] at hl
      simp only [List.cons_append, List.find?, hx]
      exact ih hl
    · rw [hx] at hl; exact Option.noConfusion hl

theorem lookup_insert_self (fs : FS) (p : Nat) (n : List Char) (i : Nat)
    (hnone : lookupDentry fs p n = none) :
    lookupDentry { fs with dentries := fs.dentries ++ [⟨p, n, i⟩] } p n = some i := by
  unfold lookupDentry at hnone ⊢
  rcases hf : fs.dentries.find? (fun d => d.parent_ino = p && d.name = n) with _ | d
  · rw [find_none_append _ _ _ hf (by simp)]
    rfl
  · rw [hf] at hnone; exact Option.noConfusion hnone

/-- Structural facts about `insertInode`. -/
theorem insertInode_dentries (fs : FS) (m : Nat) (nl : Int) :
    (insertInode fs m nl).1.dentries = fs.dentries := rfl

theorem insertInode_chunks (fs : FS) (m : Nat) (nl : Int) :
    (insertInode fs m nl).1.chunks = fs.chunks := rfl

theorem insertInode_ext (fs : FS) (m : Nat) (nl : Int) :
    FSExt fs (insertInode fs m nl).1 :=
  ⟨⟨[], by simp [insertInode_dentries]⟩, ⟨_, rfl⟩, insertInode_chunks fs m nl⟩

theorem insertInode_exists (fs : FS) (m : Nat) (nl : Int) :
    inodeExists (insertInode fs m nl).1 (insertInode fs m nl).2 = true := by
  unfold inodeExists findInode insertInode
  exact find_isSome_append_self _ _ _ (by simp)

/-- The component loop of `ensure_parents` succeeds from any state whose
cache is coherent and whose current inode exists, extends the state, and
leaves a dentry chain that the pure walk resolves to the returned
inode. -/
theorem ensureLoop_spec (comps : List (List Char)) (fs : FS) (cache : Cache)
    (cur : Nat) (hri : RefInt fs) (hok : CacheOK fs cache)
    (hcur : inodeExists fs cur = true) :
    ∃ fs' cache' pino,
      ensureLoop fs cache cur comps = (fs', cache', .ok pino) ∧
      FSExt fs fs' ∧ RefInt fs' ∧ CacheOK fs' cache' ∧
      inodeExists fs' pino = true ∧
      walkDB fs' cur comps = some pino := by
  induction comps generalizing fs cache cur with
  | nil => exact ⟨fs, cache, cur, rfl, FSExt_refl fs, hri, hok, hcur, rfl⟩
  | cons c rest ih =>
    rw [ensureLoop]
    split
    · next i hcg =>
        have hl : lookupDentry fs cur c = some i := cacheGet_lookup hok hcg
        have hex : inodeExists fs i = true := lookup_ino_exists hri cur c i hl
        obtain ⟨fs', cache', pino, heq, hext, hri', hok', hex', hwalk⟩ :=
          ih fs cache i hri hok hex
        refine ⟨fs', cache', pino, heq, hext, hri', hok', hex', ?_⟩
        rw [walkDB, lookup_mono hext cur c i hl]
        exact hwalk
    · next hcg =>
      split
      · next i hl =>
          have hex : inodeExists fs i = true := lookup_ino_exists hri cur c i hl
          obtain ⟨fs', cache', pino, heq, hext, hri', hok', hex', hwalk⟩ :=
            ih fs (cacheInsert cache cur c i) i hri (CacheOK_insert cur c i hok hl) hex
          refine ⟨fs', cache', pino, heq, hext, hri', hok', hex', ?_⟩
          rw [walkDB, lookup_mono hext cur c i hl]
          exact hwalk
      · next hl =>
          split
          next fs1 newIno hins =>
            have hfs1 : (insertInode fs (S_IFDIR ||| 0o755) 2).1 = fs1 :=
              congrArg Prod.fst hins
            have hnew0 : (insertInode fs (S_IFDIR ||| 0o755) 2).2 = newIno :=
              congrArg Prod.snd hins
            have hd1 : fs1.dentries = fs.dentries := by
              rw [← hfs1]; exact insertInode_dentries fs _ 2
            have hext1 : FSExt fs fs1 := by
              rw [← hfs1]; exact insertInode_ext fs _ 2
            have hri1 : RefInt fs1 := by
              rw [← hfs1]; exact RefInt_insertInode fs _ 2 hri
            have hnew1 : inodeExists fs1 newIno = true := by
              rw [← hfs1, ← hnew0]; exact insertInode_exists fs _ 2
            have hlookup1 : lookupDentry fs1 cur c = none := by
              unfold lookupDentry
              rw [hd1]
              exact hl
            have hden : insertDentry fs1 cur c newIno =
                .ok { fs1 with dentries := fs1.dentries ++ [⟨cur, c, newIno⟩] } := by
              unfold insertDentry
              rw [if_neg (by simp [hlookup1]), if_neg (by
                simp only [Bool.not_eq_true', Bool.and_eq_false_iff]
                intro hcon
                rcases hcon with hcon | hcon
                · rw [inodeExists_mono hext1 cur hcur] at hcon
                  exact Bool.noConfusion hcon
                · rw [hnew1] at hcon
                  exact Bool.noConfusion hcon)]
            rw [hden]
            have hext2 : FSExt fs1
                { fs1 with dentries := fs1.dentries ++ [⟨cur, c, newIno⟩] } :=
              ⟨⟨[⟨cur, c, newIno⟩], rfl⟩, ⟨[], by simp⟩, rfl⟩
            have hri2 : RefInt
                { fs1 with dentries := fs1.dentries ++ [⟨cur, c, newIno⟩] } :=
              RefInt_insertDentry fs1 _ cur c newIno hri1 hden
            have hl2 : lookupDentry
                { fs1 with dentries := fs1.dentries ++ [⟨cur, c, newIno⟩] } cur c =
                some newIno := lookup_insert_self fs1 cur c newIno hlookup1
            have hok2 : CacheOK
                { fs1 with dentries := fs1.dentries ++ [⟨cur, c, newIno⟩] }
                (cacheInsert cache cur c newIno) :=
              CacheOK_insert cur c newIno
                (CacheOK_mono (FSExt_trans hext1 hext2) hok) hl2
            have hnew2 : inodeExists
                { fs1 with dentries := fs1.dentries ++ [⟨cur, c, newIno⟩] }
                newIno = true :=
              inodeExists_mono hext2 newIno hnew1
            obtain ⟨fs', cache', pino, heq, hext, hri', hok', hex', hwalk⟩ :=
              ih _ (cacheInsert cache cur c newIno) newIno hri2 hok2 hnew2
            refine ⟨fs', cache', pino, heq, ?_, hri', hok', hex', ?_⟩
            · exact FSExt_trans hext1 (FSExt_trans hext2 hext)
            · rw [walkDB, lookup_mono hext cur c newIno hl2]
              exact hwalk

/-- `ensure_parents` success specification (for absolute parent paths). -/
theorem ensure_parents_spec (fs : FS) (cache : Cache) (path : List Char)
    (hri : RefInt fs) (hok : CacheOK fs cache)
    (hroot : inodeExists fs ROOT_INO = true) :
    ∃ fs' cache' pino,
      ensure_parents fs cache path = (fs', cache', .ok pino) ∧
      FSExt fs fs' ∧ RefInt fs' ∧ CacheOK fs' cache' ∧
      inodeExists fs' pino = true ∧
      walkDB fs' ROOT_INO (pathComps path) = some pino := by
  unfold ensure_parents
  split
  · next hp =>
    subst hp
    exact ⟨fs, cache, ROOT_INO, rfl, FSExt_refl fs, hri, hok, hroot, by
      simp [pathComps, stripPrefixSlash, comps0, splitSeg, walkDB]⟩
  · exact ensureLoop_spec (pathComps path) fs cache ROOT_INO hri hok hroot

/-- The `fs_data` rows `write_file_data` inserts for chunks `cs` of an
inode, enumerated from `start`. -/
def enumChunks (H : Bytes → Nat) (ino : Nat) : Nat → List Bytes → List Chunk
  | _, [] => []
  | i, c :: rest => ⟨ino, i, c, H c⟩ :: enumChunks H ino (i + 1) rest

theorem insertChunksLoop_spec (H : Bytes → Nat) (cs : List Bytes) (fs : FS)
    (ino start : Nat) (hex : inodeExists fs ino = true)
    (hlow : ∀ c ∈ fs.chunks, c.ino = ino → c.chunk_index < start) :
    insertChunksLoop H fs ino start cs =
      ({ fs with chunks := fs.chunks ++ enumChunks H ino start cs }, .ok ()) := by
  induction cs generalizing fs start with
  | nil => simp [insertChunksLoop, enumChunks]
  | cons c rest ih =>
    rw [insertChunksLoop]
    have hA : ¬ (fs.chunks.any
        (fun x => x.ino = ino && x.chunk_index = start) = true) := by
      simp only [List.any_eq_true, Bool.and_eq_true, decide_eq_true_eq,
        not_exists, not_and]
      intro x hx h1 h2
      have h3 := hlow x hx h1
      omega
    have hins : insertChunk fs ino start c (compute_checksum H c) =
        .ok { fs with chunks :=
          fs.chunks ++ [⟨ino, start, c, compute_checksum H c⟩] } := by
      unfold insertChunk
      rw [if_neg hA, if_neg (by simp [hex])]
    rw [hins]
    have hex2 : inodeExists
        { fs with chunks := fs.chunks ++ [⟨ino, start, c, compute_checksum H c⟩] }
        ino = true := hex
    have hlow2 : ∀ x ∈ ({ fs with chunks :=
        fs.chunks ++ [⟨ino, start, c, compute_checksum H c⟩] } : FS).chunks,
        x.ino = ino → x.chunk_index < start + 1 := by
      intro x hx hxi
      rcases List.mem_append.mp hx with hm | hm
      · have := hlow x hm hxi
        omega
      · simp only [List.mem_singleton] at hm
        subst hm
        simp
    have hrec := ih _ (start + 1) hex2 hlow2
    simpa [enumChunks, compute_checksum, List.append_assoc] using hrec

theorem write_file_data_spec (H : Bytes → Nat) (fs : FS) (ino : Nat)
    (d : Bytes) (chunk_size : Nat) (hex : inodeExists fs ino = true) :
    write_file_data H fs ino d chunk_size =
      ({ fs with
          inodes := fs.inodes.map (fun r =>
            if r.ino = ino then { r with size := d.length, mtime := fs.clock } else r),
          chunks := fs.chunks.filter (fun c => !(c.ino = ino)) ++
            enumChunks H ino 0 (chunksOf chunk_size d) },
       .ok ()) := by
  rw [write_file_data]
  have hex1 : inodeExists (deleteChunks fs ino) ino = true := hex
  split
  · next hempty =>
    have hd : d = [] := by
      cases d with
      | nil => rfl
      | cons x xs => simp at hempty
    subst hd
    simp [updateInodeSize, deleteChunks, chunksOf, enumChunks]
  · next hnonempty =>
    have hspec := insertChunksLoop_spec H (chunksOf chunk_size d)
      (deleteChunks fs ino) ino 0 hex1 (by
        intro c hc hci
        exfalso
        have hmem := List.mem_filter.mp hc
        simp [hci] at hmem)
    rw [hspec]
    simp [updateInodeSize, deleteChunks]

theorem find_map {α : Type} (l : List α) (f : α → α) (p : α → Bool)
    (hf : ∀ a, p (f a) = p a) :
    (l.map f).find? p = (l.find? p).map f := by
  induction l with
  | nil => rfl
  | cons a as ih =>
    simp only [List.map_cons, List.find?, hf a]
    cases hp : p a
    · exact ih
    · rfl

theorem walkDB_congr_dentries {fs fs' : FS} (heq : fs'.dentries = fs.dentries)
    (cur : Nat) (comps : List (List Char)) :
    walkDB fs' cur comps = walkDB fs cur comps := by
  induction comps generalizing cur with
  | nil => rfl
  | cons c rest ih =>
    rw [walkDB, walkDB]
    have hl : lookupDentry fs' cur c = lookupDentry fs cur c := by
      unfold lookupDentry
      rw [heq]
    rw [hl]
    cases lookupDentry fs cur c with
    | none => rfl
    | some i => exact ih i

theorem walkDB_snoc (fs : FS) (cur : Nat) (l1 : List (List Char))
    (n : List Char) (pino : Nat) (h1 : walkDB fs cur l1 = some pino) :
    walkDB fs cur (l1 ++ [n]) = lookupDentry fs pino n := by
  induction l1 generalizing cur with
  | nil =>
    simp only [walkDB, Option.some.injEq] at h1
    subst h1
    rw [List.nil_append, walkDB]
    cases hl : lookupDentry fs cur n with
    | none => rfl
    | some i => rfl
  | cons c rest ih =>
    rw [walkDB] at h1
    rw [List.cons_append, walkDB]
    cases hl : lookupDentry fs cur c with
    | none => rw [hl] at h1; exact Option.noConfusion h1
    | some i =>
      rw [hl] at h1
      exact ih i h1

theorem enum_index_ge (H : Bytes → Nat) (ino : Nat) (cs : List Bytes)
    (s : Nat) : ∀ x ∈ enumChunks H ino s cs, s ≤ x.chunk_index := by
  induction cs generalizing s with
  | nil => simp [enumChunks]
  | cons c rest ih =>
    intro x hx
    rw [enumChunks] at hx
    rcases List.mem_cons.mp hx with hm | hm
    · subst hm; simp
    · have := ih (s + 1) x hm
      omega

theorem enum_pairwise (H : Bytes → Nat) (ino : Nat) (cs : List Bytes)
    (s : Nat) : (enumChunks H ino s cs).Pairwise
      (fun a b => a.chunk_index ≤ b.chunk_index) := by
  induction cs generalizing s with
  | nil => simp [enumChunks]
  | cons c rest ih =>
    rw [enumChunks, List.pairwise_cons]
    constructor
    · intro x hx
      have := enum_index_ge H ino rest (s + 1) x hx
      simp only
      omega
    · exact ih (s + 1)

theorem enum_filter_self (H : Bytes → Nat) (ino : Nat) (cs : List Bytes)
    (s : Nat) : (enumChunks H ino s cs).filter (fun c => c.ino = ino) =
      enumChunks H ino s cs := by
  induction cs generalizing s with
  | nil => rfl
  | cons c rest ih =>
    rw [enumChunks]
    simp [List.filter_cons, ih (s + 1)]

theorem readRowsLoop_enum (H : Bytes → Nat) (verify : Bool) (ino : Nat)
    (cs : List Bytes) (s : Nat) :
    readRowsLoop H verify ino (enumChunks H ino s cs) = .ok cs.flatten := by
  induction cs generalizing s with
  | nil => cases verify <;> rfl
  | cons c rest ih =>
    rw [enumChunks, readRowsLoop]
    cases verify with
    | false => rw [ih (s + 1)]; rfl
    | true =>
      rw [if_pos rfl]
      have hv : verify_checksum H c (H c) ino s = .ok () := by
        unfold verify_checksum compute_checksum
        rw [if_pos rfl]
      rw [hv, ih (s + 1)]
      simp

/-- Reading an inode whose chunk rows are exactly the freshly written
enumeration returns the written bytes, with or without verification. -/
theorem read_file_data_enum (H : Bytes → Nat) (fs2 : FS) (ino : Nat)
    (d : Bytes) (chunk_size : Nat) (verify queryOnly : Bool)
    (hch : fs2.chunks.filter (fun c => c.ino = ino) =
      enumChunks H ino 0 (chunksOf chunk_size d)) :
    (read_file_data H fs2 ino verify queryOnly).2 = .ok d := by
  rw [read_file_data]
  have hsorted : sortByKey (fun c => c.chunk_index)
      (fs2.chunks.filter (fun c => c.ino = ino)) =
      enumChunks H ino 0 (chunksOf chunk_size d) := by
    rw [hch]
    exact sortByKey_sorted_id _ _ (enum_pairwise H ino _ 0)
  rw [hsorted, readRowsLoop_enum H verify ino _ 0, chunksOf_flatten]

theorem stat_ino_ok {fs : FS} {i : Nat} {st : Inode}
    (h : stat_ino fs i = .ok st) : findInode fs i = some st ∧ st.ino = i := by
  unfold stat_ino at h
  rcases hf : findInode fs i with _ | r
  · rw [hf] at h; exact Except.noConfusion h
  · rw [hf] at h
    simp only [Except.ok.injEq] at h
    subst h
    refine ⟨rfl, ?_⟩
    have := List.find?_some hf
    simpa using this

theorem foldl_max_base (l : List Nat) (a : Nat) : a ≤ l.foldl max a := by
  induction l generalizing a with
  | nil => simp
  | cons y ys ih =>
    rw [List.foldl_cons]
    exact le_trans (le_max_left a y) (ih (max a y))

theorem foldl_max_ge (l : List Nat) (a x : Nat) (hx : x ∈ l) :
    x ≤ l.foldl max a := by
  induction l generalizing a with
  | nil => simp at hx
  | cons y ys ih =>
    rw [List.foldl_cons]
    rcases List.mem_cons.mp hx with hm | hm
    · subst hm
      exact le_trans (le_max_right a x) (foldl_max_base ys (max a x))
    · exact ih (max a y) hm

theorem insertInode_fresh (fs : FS) (m : Nat) (nl : Int) :
    ∀ r ∈ fs.inodes, r.ino ≠ (insertInode fs m nl).2 := by
  intro r hr
  unfold insertInode
  simp only
  have hle : r.ino ≤ (fs.inodes.map (·.ino)).foldl max fs.seq :=
    foldl_max_ge _ fs.seq r.ino (List.mem_map_of_mem _ hr)
  omega

theorem findInode_insert_self (fs : FS) (m : Nat) (nl : Int) :
    findInode (insertInode fs m nl).1 (insertInode fs m nl).2 =
      some ⟨(insertInode fs m nl).2, m, 0, nl,
        fs.clock, fs.clock, fs.clock⟩ := by
  unfold findInode
  have hnone : fs.inodes.find?
      (fun r => r.ino = (insertInode fs m nl).2) = none := by
    rw [List.find?_eq_none]
    intro r hr
    simp only [decide_eq_true_eq]
    exact insertInode_fresh fs m nl r hr
  have hrows : (insertInode fs m nl).1.inodes = fs.inodes ++
      [⟨(insertInode fs m nl).2, m, 0, nl, fs.clock, fs.clock, fs.clock⟩] := rfl
  rw [hrows]
  exact find_none_append _ _ _ hnone (by simp)

/-- Full success specification of `write_file`: the state it leaves has a
resolvable dentry chain to the written file inode, whose stored size is
the data length and whose chunk rows are exactly the fresh enumeration
of the data's chunks. -/
theorem write_file_ok_spec (H : Bytes → Nat) (fs : FS) (cache : Cache)
    (chunk_size : Nat) (p : List Char) (d : Bytes) (pp n : List Char)
    (fs' : FS) (cache' : Cache)
    (hri : RefInt fs) (hok : CacheOK fs cache)
    (hroot : inodeExists fs ROOT_INO = true)
    (hsp : split_path p = .ok (pp, n))
    (hw : write_file H fs cache chunk_size p d = (fs', cache', .ok ())) :
    ∃ pino ino,
      CacheOK fs' cache' ∧
      walkDB fs' ROOT_INO (pathComps pp) = some pino ∧
      lookupDentry fs' pino n = some ino ∧
      (∃ st, findInode fs' ino = some st ∧ mode_is_file st.mode = true ∧
        st.size = d.length) ∧
      fs'.chunks.filter (fun c => c.ino = ino) =
        enumChunks H ino 0 (chunksOf chunk_size d) := by
  rw [write_file] at hw
  split at hw
  · next e heq =>
    rw [hsp] at heq
    exact Except.noConfusion heq
  · next pp2 n2 hsp2 =>
    rw [hsp] at hsp2
    simp only [Except.ok.injEq, Prod.mk.injEq] at hsp2
    obtain ⟨hpp, hnn⟩ := hsp2
    subst hpp hnn
    obtain ⟨fs1, cache1, pino, hens, hext1, hri1, hok1, hpex, hwalk1⟩ :=
      ensure_parents_spec fs cache pp hri hok hroot
    split at hw
    · next hens2 =>
      rw [hens] at hens2
      simp at hens2
    · next fs1b cache1b pinob hens2 =>
      rw [hens] at hens2
      simp only [Prod.mk.injEq, Except.ok.injEq] at hens2
      obtain ⟨h1, h2, h3⟩ := hens2
      subst h1 h2 h3
      split at hw
      · -- the leaf dentry already exists: it must be a regular file
        next ino hlk =>
        split at hw
        · simp at hw
        · next st hst =>
          obtain ⟨hfind, hstino⟩ := stat_ino_ok hst
          split at hw
          · simp at hw
          · next hfile =>
            simp only [Bool.not_eq_true', Bool.not_eq_false] at hfile
            have hex : inodeExists fs1 ino = true := by
              unfold inodeExists
              rw [hfind]
              rfl
            rw [write_file_data_spec H fs1 ino d chunk_size hex] at hw
            simp only [Prod.mk.injEq] at hw
            obtain ⟨hfs', hcache', _⟩ := hw
            subst hcache'
            have hdfs' : fs'.dentries = fs1.dentries := by rw [← hfs']
            have hifs' : fs'.inodes = fs1.inodes.map (fun r =>
                if r.ino = ino then
                  { r with size := d.length, mtime := fs1.clock } else r) := by
              rw [← hfs']
            have hcfs' : fs'.chunks =
                fs1.chunks.filter (fun c => !(c.ino = ino)) ++
                  enumChunks H ino 0 (chunksOf chunk_size d) := by
              rw [← hfs']
            refine ⟨pino, ino, ?_, ?_, ?_, ?_, ?_⟩
            · exact CacheOK_same_dentries hdfs' hok1
            · rw [walkDB_congr_dentries hdfs' ROOT_INO (pathComps pp)]
              exact hwalk1
            · show lookupDentry fs' pino n = some ino
              unfold lookupDentry
              rw [hdfs']
              exact hlk
            · refine ⟨{ st with size := d.length, mtime := fs1.clock }, ?_, ?_, ?_⟩
              · unfold findInode
                rw [hifs', find_map fs1.inodes _ (fun r => r.ino = ino)
                  (fun r => by by_cases hri2 : r.ino = ino <;> simp [hri2])]
                unfold findInode at hfind
                rw [hfind]
                simp [hstino]
              · exact hfile
              · rfl
            · rw [hcfs', List.filter_append, List.filter_filter,
                enum_filter_self H ino _ 0]
              have hnil : fs1.chunks.filter
                  (fun c => c.ino = ino && !(c.ino = ino)) = [] := by
                rw [List.filter_eq_nil_iff]
                intro c hc
                by_cases hci : c.ino = ino <;> simp [hci]
              rw [hnil, List.nil_append]
      · -- fresh leaf: a new file inode and dentry are created
        next hlk =>
        split at hw
        next fs2 ino hins =>
          have hfs2 : (insertInode fs1 (S_IFREG ||| 0o644) 1).1 = fs2 :=
            congrArg Prod.fst hins
          have hino0 : (insertInode fs1 (S_IFREG ||| 0o644) 1).2 = ino :=
            congrArg Prod.snd hins
          have hd2 : fs2.dentries = fs1.dentries := by
            rw [← hfs2]; exact insertInode_dentries fs1 _ 1
          have hext2 : FSExt fs1 fs2 := by
            rw [← hfs2]; exact insertInode_ext fs1 _ 1
          have hfind2 : findInode fs2 ino =
              some ⟨ino, S_IFREG ||| 0o644, 0, 1,
                fs1.clock, fs1.clock, fs1.clock⟩ := by
            rw [← hfs2, ← hino0]
            exact findInode_insert_self fs1 _ 1
          have hex2 : inodeExists fs2 ino = true := by
            unfold inodeExists
            rw [hfind2]
            rfl
          have hlookup2 : lookupDentry fs2 pino n = none := by
            unfold lookupDentry
            rw [hd2]
            exact hlk
          have hden : insertDentry fs2 pino n ino =
              .ok { fs2 with dentries := fs2.dentries ++ [⟨pino, n, ino⟩] } := by
            unfold insertDentry
            rw [if_neg (by simp [hlookup2]), if_neg (by
              simp only [Bool.not_eq_true', Bool.and_eq_false_iff]
              intro hcon
              rcases hcon with hcon | hcon
              · rw [inodeExists_mono hext2 pino hpex] at hcon
                exact Bool.noConfusion hcon
              · rw [hex2] at hcon
                exact Bool.noConfusion hcon)]
          rw [hden] at hw
          split at hw
          · next e heq3 => exact Except.noConfusion heq3
          · next fs3 heq3 =>
            simp only [Except.ok.injEq] at heq3
            subst heq3
            have hext3 : FSExt fs2
                { fs2 with dentries := fs2.dentries ++ [⟨pino, n, ino⟩] } :=
              ⟨⟨[⟨pino, n, ino⟩], rfl⟩, ⟨[], by simp⟩, rfl⟩
            have hex3 : inodeExists
                { fs2 with dentries := fs2.dentries ++ [⟨pino, n, ino⟩] }
                ino = true :=
              inodeExists_mono hext3 ino hex2
            rw [write_file_data_spec H _ ino d chunk_size hex3] at hw
            simp only [Prod.mk.injEq] at hw
            obtain ⟨hfs', hcache', _⟩ := hw
            subst hcache'
            have hl3 : lookupDentry
                { fs2 with dentries := fs2.dentries ++ [⟨pino, n, ino⟩] } pino n =
                some ino := lookup_insert_self fs2 pino n ino hlookup2
            have hdfs' : fs'.dentries = fs2.dentries ++ [⟨pino, n, ino⟩] := by
              rw [← hfs']
            have hifs' : fs'.inodes = fs2.inodes.map (fun r =>
                if r.ino = ino then
                  { r with size := d.length, mtime := fs2.clock } else r) := by
              rw [← hfs']
            have hcfs' : fs'.chunks =
                fs2.chunks.filter (fun c => !(c.ino = ino)) ++
                  enumChunks H ino 0 (chunksOf chunk_size d) := by
              rw [← hfs']
            have hlkfs' : lookupDentry fs' pino n = some ino := by
              unfold lookupDentry
              rw [hdfs']
              unfold lookupDentry at hl3
              exact hl3
            refine ⟨pino, ino, ?_, ?_, ?_, ?_, ?_⟩
            · apply CacheOK_insert pino n ino
              · exact CacheOK_same_dentries hdfs'
                  (CacheOK_mono (FSExt_trans hext2 hext3) hok1)
              · exact hlkfs'
            · have hdfs2 : fs'.dentries = ({ fs2 with dentries :=
                  fs2.dentries ++ [⟨pino, n, ino⟩] } : FS).dentries := hdfs'
              rw [walkDB_congr_dentries hdfs2 ROOT_INO (pathComps pp)]
              exact walkDB_mono (FSExt_trans hext2 hext3) ROOT_INO _ pino hwalk1
            · exact hlkfs'
            · refine ⟨⟨ino, S_IFREG ||| 0o644, d.length, 1,
                fs1.clock, fs2.clock, fs1.clock⟩, ?_, ?_, ?_⟩
              · unfold findInode
                rw [hifs', find_map fs2.inodes _ (fun r => r.ino = ino)
                  (fun r => by by_cases hri2 : r.ino = ino <;> simp [hri2])]
                unfold findInode at hfind2
                rw [hfind2]
                simp
              · show mode_is_file (S_IFREG ||| 0o644) = true
                rfl
              · rfl
            · rw [hcfs', List.filter_append, List.filter_filter,
                enum_filter_self H ino _ 0]
              have hnil : fs2.chunks.filter
                  (fun c => c.ino = ino && !(c.ino = ino)) = [] := by
                rw [List.filter_eq_nil_iff]
                intro c hc
                by_cases hci : c.ino = ino <;> simp [hci]
              rw [hnil, List.nil_append]

/-- Reading a path that resolves (under a coherent cache) to a regular
file whose chunk rows are a fresh enumeration returns those bytes. -/
theorem read_file_ok (H : Bytes → Nat) (fs2 : FS) (cache2 : Cache)
    (verify : Bool) (p : List Char) (ino : Nat) (d : Bytes) (chunk_size : Nat)
    (hok2 : CacheOK fs2 cache2) (hpne : p ≠ ['/'])
    (hwalk : walkDB fs2 ROOT_INO (pathComps p) = some ino)
    (hst : ∃ st, findInode fs2 ino = some st ∧ mode_is_file st.mode = true)
    (hch : fs2.chunks.filter (fun c => c.ino = ino) =
      enumChunks H ino 0 (chunksOf chunk_size d)) :
    (read_file H fs2 cache2 verify p).2.2 = .ok d := by
  obtain ⟨st, hfind, hfile⟩ := hst
  have hres : (resolve_path fs2 cache2 p).2 = .ok ino := by
    unfold resolve_path
    rw [if_neg hpne]
    rw [(resolveLoop_spec fs2 (pathComps p) cache2 ROOT_INO (pathComps p) hok2).2]
    rw [hwalk]
  rw [read_file]
  split
  · next cache1 e heq =>
    rw [heq] at hres
    exact Except.noConfusion hres
  · next cache1 ino2 heq =>
    rw [heq] at hres
    simp only [Except.ok.injEq] at hres
    subst hres
    split
    · next e heq2 =>
      unfold stat_ino at heq2
      rw [hfind] at heq2
      exact Except.noConfusion heq2
    · next st2 heq2 =>
      unfold stat_ino at heq2
      rw [hfind] at heq2
      simp only [Except.ok.injEq] at heq2
      subst heq2
      split
      · next hcon =>
        rw [hfile] at hcon
        simp at hcon
      · split
        next fs3 r hr =>
          have hok3 := read_file_data_enum H fs2 ino2 d chunk_size verify true hch
          rw [hr] at hok3
          exact hok3

/-- C1. For an absolute file path `p` (slash-rooted, non-empty slash-free
basename) and any byte string `d`, from any state satisfying the
referential invariant with a coherent dentry cache and an existing root
inode, a successful `write_file p d` followed by `read_file p` returns
exactly `d` (with or without checksum verification); moreover the write
left, for the file's inode, exactly the fresh chunk enumeration of `d`
(any previously stored chunks for that inode are gone), which the read
reassembles in `chunk_index` order. -/
theorem claim_C1_write_read_roundtrip (H : Bytes → Nat) (fs : FS)
    (cache : Cache) (chunk_size : Nat) (p : List Char) (d : Bytes)
    (pp n : List Char) (fs' : FS) (cache' : Cache) (verify : Bool)
    (hcs : 0 < chunk_size)
    (hri : RefInt fs) (hok : CacheOK fs cache)
    (hroot : inodeExists fs ROOT_INO = true)
    (hp : p.head? = some '/')
    (hsp : split_path p = .ok (pp, n)) (hn : n ≠ [])
    (hw : write_file H fs cache chunk_size p d = (fs', cache', .ok ())) :
    (read_file H fs' cache' verify p).2.2 = .ok d ∧
    ∃ ino, walkDB fs' ROOT_INO (pathComps p) = some ino ∧
      fs'.chunks.filter (fun c => c.ino = ino) =
        enumChunks H ino 0 (chunksOf chunk_size d) := by
  obtain ⟨hcomps, hnosep, hpphead⟩ := split_path_comps p pp n hp hsp hn
  obtain ⟨pino, ino, hok', hwalk', hlk', ⟨st, hfind, hfile, hsize⟩, hch⟩ :=
    write_file_ok_spec H fs cache chunk_size p d pp n fs' cache'
      hri hok hroot hsp hw
  have hpne : p ≠ ['/'] := by
    intro hcon
    subst hcon
    simp [split_path] at hsp
  have hwalkp : walkDB fs' ROOT_INO (pathComps p) = some ino := by
    rw [hcomps, walkDB_snoc fs' ROOT_INO (pathComps pp) n pino hwalk']
    exact hlk'
  exact ⟨read_file_ok H fs' cache' verify p ino d chunk_size hok' hpne hwalkp
    ⟨st, hfind, hfile⟩ hch, ino, hwalkp, hch⟩

theorem enum_map_data (H : Bytes → Nat) (ino : Nat) (l : List Bytes) (s : Nat) :
    (enumChunks H ino s l).map (fun c => c.data) = l := by
  induction l generalizing s with
  | nil => rfl
  | cons c rest ih =>
    rw [enumChunks, List.map_cons, ih (s + 1)]

theorem enum_map_index (H : Bytes → Nat) (ino : Nat) (l : List Bytes) (s : Nat) :
    (enumChunks H ino s l).map (fun c => c.chunk_index) = List.range' s l.length := by
  induction l generalizing s with
  | nil => rfl
  | cons c rest ih =>
    rw [enumChunks, List.map_cons, ih (s + 1), List.length_cons, List.range'_succ]

theorem enum_mem_data (H : Bytes → Nat) (ino : Nat) (l : List Bytes) (s : Nat)
    (c : Chunk) (hc : c ∈ enumChunks H ino s l) : c.data ∈ l := by
  induction l generalizing s with
  | nil => simp [enumChunks] at hc
  | cons x rest ih =>
    rw [enumChunks] at hc
    rcases List.mem_cons.mp hc with hm | hm
    · subst hm; simp
    · exact List.mem_cons_of_mem x (ih (s + 1) hm)

theorem enum_length (H : Bytes → Nat) (ino : Nat) (l : List Bytes) (s : Nat) :
    (enumChunks H ino s l).length = l.length := by
  induction l generalizing s with
  | nil => rfl
  | cons c rest ih =>
    rw [enumChunks, List.length_cons, ih (s + 1), List.length_cons]

theorem enum_getD_data (H : Bytes → Nat) (ino : Nat) (l : List Bytes) (s : Nat)
    (i : Nat) (hi : i < l.length) :
    ((enumChunks H ino s l).getD i ⟨0, 0, [], 0⟩).data = l.getD i [] := by
  induction l generalizing s i with
  | nil => simp at hi
  | cons c rest ih =>
    rw [enumChunks]
    cases i with
    | zero => simp
    | succ j =>
      simp only [List.getD_cons_succ]
      exact ih (s + 1) j (by simpa using hi)

theorem read_file_data_ok_state (H : Bytes → Nat) (fs : FS) (ino : Nat)
    (verify qo : Bool) (fs2 : FS) (bs : Bytes)
    (h : read_file_data H fs ino verify qo = (fs2, .ok bs)) :
    fs2 = (if qo then fs else updateInodeAtime fs ino) := by
  rw [read_file_data] at h
  split at h
  · simp at h
  · simp only [Prod.mk.injEq] at h
    exact h.1.symm

theorem updateInodeAtime_dentries (fs : FS) (i : Nat) :
    (updateInodeAtime fs i).dentries = fs.dentries := rfl

theorem updateInodeAtime_findInode (fs : FS) (i j : Nat) :
    findInode (updateInodeAtime fs i) j =
      (findInode fs j).map (fun r =>
        if r.ino = i then { r with atime := fs.clock } else r) := by
  unfold findInode updateInodeAtime
  exact find_map fs.inodes _ (fun r => r.ino = j)
    (fun r => by by_cases hr : r.ino = i <;> simp [hr])

/-- Full success specification of `append_file`: some byte string `dAll`
(the prior contents extended by `data`, or just `data` for a fresh file)
was rewritten through `write_file_data`, so the final state carries its
fresh chunk enumeration and its length as the stored size. -/
theorem append_file_ok_spec (H : Bytes → Nat) (fs : FS) (cache : Cache)
    (chunk_size : Nat) (verify : Bool) (p : List Char) (d : Bytes)
    (pp n : List Char) (fs' : FS) (cache' : Cache)
    (hri : RefInt fs) (hok : CacheOK fs cache)
    (hroot : inodeExists fs ROOT_INO = true)
    (hsp : split_path p = .ok (pp, n))
    (hw : append_file H fs cache chunk_size verify p d = (fs', cache', .ok ())) :
    ∃ ino dAll,
      (∃ st, findInode fs' ino = some st ∧ mode_is_file st.mode = true ∧
        st.size = dAll.length) ∧
      fs'.chunks.filter (fun c => c.ino = ino) =
        enumChunks H ino 0 (chunksOf chunk_size dAll) := by
  rw [append_file] at hw
  split at hw
  · next e heq =>
    rw [hsp] at heq
    exact Except.noConfusion heq
  · next pp2 n2 hsp2 =>
    rw [hsp] at hsp2
    simp only [Except.ok.injEq, Prod.mk.injEq] at hsp2
    obtain ⟨hpp, hnn⟩ := hsp2
    subst hpp hnn
    obtain ⟨fs1, cache1, pino, hens, hext1, hri1, hok1, hpex, hwalk1⟩ :=
      ensure_parents_spec fs cache pp hri hok hroot
    split at hw
    · next hens2 =>
      rw [hens] at hens2
      simp at hens2
    · next fs1b cache1b pinob hens2 =>
      rw [hens] at hens2
      simp only [Prod.mk.injEq, Except.ok.injEq] at hens2
      obtain ⟨h1, h2, h3⟩ := hens2
      subst h1 h2 h3
      split at hw
      · -- existing file: read, concatenate, rewrite
        next ino hlk =>
        split at hw
        · simp at hw
        · next st hst =>
          obtain ⟨hfind, hstino⟩ := stat_ino_ok hst
          split at hw
          · simp at hw
          · next hfile =>
            simp only [Bool.not_eq_true', Bool.not_eq_false] at hfile
            split at hw
            · simp at hw
            · next fs1r existing hread =>
              have hfs1r : fs1r = updateInodeAtime fs1 ino := by
                have := read_file_data_ok_state H fs1 ino verify false fs1r
                  existing hread
                simpa using this
              subst hfs1r
              have hex : inodeExists (updateInodeAtime fs1 ino) ino = true := by
                unfold inodeExists
                rw [updateInodeAtime_findInode, hfind]
                rfl
              rw [write_file_data_spec H _ ino (existing ++ d) chunk_size hex] at hw
              simp only [Prod.mk.injEq] at hw
              obtain ⟨hfs', hcache', _⟩ := hw
              refine ⟨ino, existing ++ d, ?_, ?_⟩
              · refine ⟨⟨st.ino, st.mode, (existing ++ d).length, st.nlink,
                  st.ctime, fs1.clock, fs1.clock⟩, ?_, hfile, rfl⟩
                have hifs' : fs'.inodes =
                    (updateInodeAtime fs1 ino).inodes.map (fun r =>
                      if r.ino = ino then
                        { r with
                            size := (existing ++ d).length
                            mtime := (updateInodeAtime fs1 ino).clock }
                      else r) := by
                  rw [← hfs']
                unfold findInode
                rw [hifs', find_map (updateInodeAtime fs1 ino).inodes _
                  (fun r => r.ino = ino)
                  (fun r => by by_cases hri2 : r.ino = ino <;> simp [hri2])]
                have hfindA : findInode (updateInodeAtime fs1 ino) ino =
                    some { st with atime := fs1.clock } := by
                  rw [updateInodeAtime_findInode, hfind]
                  simp [hstino]
                unfold findInode at hfindA
                rw [hfindA]
                simp [hstino, updateInodeAtime]
              · have hcfs' : fs'.chunks =
                    (updateInodeAtime fs1 ino).chunks.filter
                      (fun c => !(c.ino = ino)) ++
                      enumChunks H ino 0 (chunksOf chunk_size (existing ++ d)) := by
                  rw [← hfs']
                rw [hcfs', List.filter_append, List.filter_filter,
                  enum_filter_self H ino _ 0]
                have hnil : ((updateInodeAtime fs1 ino).chunks).filter
                    (fun c => c.ino = ino && !(c.ino = ino)) = [] := by
                  rw [List.filter_eq_nil_iff]
                  intro c hc
                  by_cases hci : c.ino = ino <;> simp [hci]
                rw [hnil, List.nil_append]
      · -- fresh leaf: identical to the `write_file` create branch
        next hlk =>
        split at hw
        next fs2 ino hins =>
          have hfs2 : (insertInode fs1 (S_IFREG ||| 0o644) 1).1 = fs2 :=
            congrArg Prod.fst hins
          have hino0 : (insertInode fs1 (S_IFREG ||| 0o644) 1).2 = ino :=
            congrArg Prod.snd hins
          have hd2 : fs2.dentries = fs1.dentries := by
            rw [← hfs2]; exact insertInode_dentries fs1 _ 1
          have hext2 : FSExt fs1 fs2 := by
            rw [← hfs2]; exact insertInode_ext fs1 _ 1
          have hfind2 : findInode fs2 ino =
              some ⟨ino, S_IFREG ||| 0o644, 0, 1,
                fs1.clock, fs1.clock, fs1.clock⟩ := by
            rw [← hfs2, ← hino0]
            exact findInode_insert_self fs1 _ 1
          have hex2 : inodeExists fs2 ino = true := by
            unfold inodeExists
            rw [hfind2]
            rfl
          have hlookup2 : lookupDentry fs2 pino n = none := by
            unfold lookupDentry
            rw [hd2]
            exact hlk
          have hden : insertDentry fs2 pino n ino =
              .ok { fs2 with dentries := fs2.dentries ++ [⟨pino, n, ino⟩] } := by
            unfold insertDentry
            rw [if_neg (by simp [hlookup2]), if_neg (by
              simp only [Bool.not_eq_true', Bool.and_eq_false_iff]
              intro hcon
              rcases hcon with hcon | hcon
              · rw [inodeExists_mono hext2 pino hpex] at hcon
                exact Bool.noConfusion hcon
              · rw [hex2] at hcon
                exact Bool.noConfusion hcon)]
          rw [hden] at hw
          split at hw
          · next e heq3 => exact Except.noConfusion heq3
          · next fs3 heq3 =>
            simp only [Except.ok.injEq] at heq3
            subst heq3
            have hext3 : FSExt fs2
                { fs2 with dentries := fs2.dentries ++ [⟨pino, n, ino⟩] } :=
              ⟨⟨[⟨pino, n, ino⟩], rfl⟩, ⟨[], by simp⟩, rfl⟩
            have hex3 : inodeExists
                { fs2 with dentries := fs2.dentries ++ [⟨pino, n, ino⟩] }
                ino = true :=
              inodeExists_mono hext3 ino hex2
            rw [write_file_data_spec H _ ino d chunk_size hex3] at hw
            simp only [Prod.mk.injEq] at hw
            obtain ⟨hfs', hcache', _⟩ := hw
            refine ⟨ino, d, ?_, ?_⟩
            · refine ⟨⟨ino, S_IFREG ||| 0o644, d.length, 1,
                fs1.clock, fs2.clock, fs1.clock⟩, ?_,
                show mode_is_file (S_IFREG ||| 0o644) = true from rfl, rfl⟩
              have hifs' : fs'.inodes = fs2.inodes.map (fun r =>
                  if r.ino = ino then
                    { r with size := d.length, mtime := fs2.clock } else r) := by
                rw [← hfs']
              unfold findInode
              rw [hifs', find_map fs2.inodes _ (fun r => r.ino = ino)
                (fun r => by by_cases hri2 : r.ino = ino <;> simp [hri2])]
              unfold findInode at hfind2
              rw [hfind2]
              simp
            · have hcfs' : fs'.chunks =
                  fs2.chunks.filter (fun c => !(c.ino = ino)) ++
                    enumChunks H ino 0 (chunksOf chunk_size d) := by
                rw [← hfs']
              rw [hcfs', List.filter_append, List.filter_filter,
                enum_filter_self H ino _ 0]
              have hnil : fs2.chunks.filter
                  (fun c => c.ino = ino && !(c.ino = ino)) = [] := by
                rw [List.filter_eq_nil_iff]
                intro c hc
                by_cases hci : c.ino = ino <;> simp [hci]
              rw [hnil, List.nil_append]

/-! ## C5: chunk layout invariants -/

/-- The freshly initialised database (`init_schema` in `schema.rs`):
one root directory inode `INSERT INTO fs_inode (ino, mode, nlink)
VALUES (1, 0o040755, 2)`, empty dentry/data/symlink tables, sequence
counter at the root's explicit rowid. -/
def init_fs : FS :=
  { inodes := [⟨1, 0o040755, 0, 2, 0, 0, 0⟩]
    dentries := []
    chunks := []
    symlinks := []
    seq := 1
    clock := 0 }

theorem sum_map_length (l : List Bytes) :
    (l.map List.length).sum = l.flatten.length := by
  induction l with
  | nil => rfl
  | cons x xs ih =>
    rw [List.map_cons, List.sum_cons, List.flatten_cons, List.length_append, ih]

/-- Shape of a fresh chunk enumeration: stored lengths sum to the data
length, every chunk but the last is exactly `chunk_size` long, none is
longer, indices run `0..k-1`, and the enumeration is empty exactly for
empty data. -/
theorem chunk_shape_of_enum (H : Bytes → Nat) (ino chunk_size : Nat)
    (hcs : 0 < chunk_size) (dAll : Bytes) :
    dAll.length =
      ((enumChunks H ino 0 (chunksOf chunk_size dAll)).map
        (fun c => c.data.length)).sum ∧
    (∀ i, i + 1 < (enumChunks H ino 0 (chunksOf chunk_size dAll)).length →
      ((enumChunks H ino 0 (chunksOf chunk_size dAll)).getD i
        ⟨0, 0, [], 0⟩).data.length = chunk_size) ∧
    (∀ c ∈ enumChunks H ino 0 (chunksOf chunk_size dAll),
      c.data.length ≤ chunk_size) ∧
    (enumChunks H ino 0 (chunksOf chunk_size dAll)).map
        (fun c => c.chunk_index) =
      List.range (enumChunks H ino 0 (chunksOf chunk_size dAll)).length ∧
    (dAll.length = 0 ↔ enumChunks H ino 0 (chunksOf chunk_size dAll) = []) := by
  refine ⟨?_, ?_, ?_, ?_, ?_⟩
  · have h1 : (enumChunks H ino 0 (chunksOf chunk_size dAll)).map
        (fun c => c.data.length) =
        (chunksOf chunk_size dAll).map List.length := by
      have h0 := enum_map_data H ino (chunksOf chunk_size dAll) 0
      calc (enumChunks H ino 0 (chunksOf chunk_size dAll)).map
            (fun c => c.data.length)
          = ((enumChunks H ino 0 (chunksOf chunk_size dAll)).map
              (fun c => c.data)).map List.length := by
            rw [List.map_map]
            rfl
        _ = (chunksOf chunk_size dAll).map List.length := by rw [h0]
    rw [h1, sum_map_length, chunksOf_flatten]
  · intro i hi
    rw [enum_length] at hi
    rw [enum_getD_data H ino _ 0 i (by omega)]
    exact chunksOf_full chunk_size hcs dAll i hi
  · intro c hc
    exact chunksOf_length_le chunk_size hcs dAll c.data
      (enum_mem_data H ino _ 0 c hc)
  · rw [enum_map_index, enum_length, List.range_eq_range']
  · constructor
    · intro h
      have hnil : dAll = [] := List.length_eq_zero.mp h
      subst hnil
      simp [chunksOf, enumChunks]
    · intro h
      cases dAll with
      | nil => rfl
      | cons x xs =>
        rw [chunksOf, dif_neg (by omega)] at h
        simp [enumChunks] at h

/-- Packaging of `chunk_shape_of_enum` for a state whose filtered chunk
rows are a fresh enumeration and whose inode stores the data length. -/
theorem chunk_invariants_of_spec (H : Bytes → Nat) (fs' : FS)
    (chunk_size : Nat) (hcs : 0 < chunk_size) (ino : Nat) (dAll : Bytes)
    (st : Inode) (hfind : findInode fs' ino = some st)
    (hfile : mode_is_file st.mode = true) (hsize : st.size = dAll.length)
    (hch : fs'.chunks.filter (fun c => c.ino = ino) =
      enumChunks H ino 0 (chunksOf chunk_size dAll)) :
    ∃ ino2 st2 cks, fs'.chunks.filter (fun c => c.ino = ino2) = cks ∧
      findInode fs' ino2 = some st2 ∧ mode_is_file st2.mode = true ∧
      st2.size = (cks.map (fun c => c.data.length)).sum ∧
      (∀ i, i + 1 < cks.length →
        (cks.getD i ⟨0, 0, [], 0⟩).data.length = chunk_size) ∧
      (∀ c ∈ cks, c.data.length ≤ chunk_size) ∧
      cks.map (fun c => c.chunk_index) = List.range cks.length ∧
      (st2.size = 0 ↔ cks = []) := by
  obtain ⟨h1, h2, h3, h4, h5⟩ := chunk_shape_of_enum H ino chunk_size hcs dAll
  refine ⟨ino, st, enumChunks H ino 0 (chunksOf chunk_size dAll),
    hch, hfind, hfile, ?_, h2, h3, h4, ?_⟩
  · rw [hsize]
    exact h1
  · rw [hsize]
    exact h5

/-- C5. After a successful `write_file` or `append_file` (from any state
satisfying the referential invariant, with a coherent cache, an existing
root inode, a splittable path and a positive chunk size), the written
file's inode satisfies: its stored `size` equals the sum of the lengths
of its `fs_data` chunk rows; every chunk row but the last holds exactly
`chunk_size` bytes and none holds more; chunk indices are contiguous from
`0`; and the size is `0` exactly when there are no chunk rows. -/
theorem claim_C5_chunk_layout (H : Bytes → Nat) (fs : FS) (cache : Cache)
    (chunk_size : Nat) (verify : Bool) (p : List Char) (d : Bytes)
    (pp n : List Char) (fs' : FS) (cache' : Cache)
    (hcs : 0 < chunk_size)
    (hri : RefInt fs) (hok : CacheOK fs cache)
    (hroot : inodeExists fs ROOT_INO = true)
    (hsp : split_path p = .ok (pp, n))
    (hw : write_file H fs cache chunk_size p d = (fs', cache', .ok ()) ∨
      append_file H fs cache chunk_size verify p d = (fs', cache', .ok ())) :
    ∃ ino st cks, fs'.chunks.filter (fun c => c.ino = ino) = cks ∧
      findInode fs' ino = some st ∧ mode_is_file st.mode = true ∧
      st.size = (cks.map (fun c => c.data.length)).sum ∧
      (∀ i, i + 1 < cks.length →
        (cks.getD i ⟨0, 0, [], 0⟩).data.length = chunk_size) ∧
      (∀ c ∈ cks, c.data.length ≤ chunk_size) ∧
      cks.map (fun c => c.chunk_index) = List.range cks.length ∧
      (st.size = 0 ↔ cks = []) := by
  rcases hw with hw | hw
  · obtain ⟨pino, ino, _, _, _, ⟨st, hfind, hfile, hsize⟩, hch⟩ :=
      write_file_ok_spec H fs cache chunk_size p d pp n fs' cache'
        hri hok hroot hsp hw
    exact chunk_invariants_of_spec H fs' chunk_size hcs ino d st
      hfind hfile hsize hch
  · obtain ⟨ino, dAll, ⟨st, hfind, hfile, hsize⟩, hch⟩ :=
      append_file_ok_spec H fs cache chunk_size verify p d pp n fs' cache'
        hri hok hroot hsp hw
    exact chunk_invariants_of_spec H fs' chunk_size hcs ino dAll st
      hfind hfile hsize hch

/-- Concrete instance of the C5 layout theorem: an empty write of `/f`
into a fresh database. -/
theorem claim_C5_chunk_layout_witness :
    0 < 4096 ∧
    ∃ ino st cks,
      (write_file (fun _ => 0) init_fs [] 4096 ['/', 'f'] []).1.chunks.filter
        (fun c => c.ino = ino) = cks ∧
      findInode (write_file (fun _ => 0) init_fs [] 4096 ['/', 'f'] []).1
        ino = some st ∧
      (st.size = 0 ↔ cks = []) :=
  ⟨by decide, by
    obtain ⟨ino, st, cks, h1, h2, _, _, _, _, _, h8⟩ :=
      claim_C5_chunk_layout (fun _ => 0) init_fs [] 4096 false ['/', 'f'] []
        ['/'] ['f'] _ _ (by decide) (by decide)
        (by intro e he; cases he) (by decide) rfl (Or.inl rfl)
    exact ⟨ino, st, cks, h1, h2, h8⟩⟩

/-- Concrete instance of the C1 roundtrip theorem: writing the empty
byte string to `/f` in a fresh database and reading it back. -/
theorem claim_C1_write_read_roundtrip_witness :
    0 < 4096 ∧
    ((read_file (fun _ => 0)
        (write_file (fun _ => 0) init_fs [] 4096 ['/', 'f'] []).1
        (write_file (fun _ => 0) init_fs [] 4096 ['/', 'f'] []).2.1
        false ['/', 'f']).2.2 = .ok [] ∧
      ∃ ino, walkDB (write_file (fun _ => 0) init_fs [] 4096 ['/', 'f'] []).1
          ROOT_INO (pathComps ['/', 'f']) = some ino ∧
        (write_file (fun _ => 0) init_fs [] 4096 ['/', 'f'] []).1.chunks.filter
          (fun c => c.ino = ino) =
          enumChunks (fun _ => 0) ino 0 (chunksOf 4096 [])) :=
  ⟨by decide,
    claim_C1_write_read_roundtrip (fun _ => 0) init_fs [] 4096 ['/', 'f'] []
      ['/'] ['f'] _ _ false (by decide) (by decide)
      (by intro e he; cases he) (by decide) rfl rfl (by decide) rfl⟩

/-! ## C2: referential integrity after every public operation -/

/-- C2. From any state satisfying the referential invariant (every
`fs_dentry.ino` and every `fs_data.ino` names an existing `fs_inode`
row), the state left by each public filesystem operation — `write_file`,
`append_file`, `mkdir`, `remove_file`, `rmdir`, `rename` (for every pair
of paths, in particular `rename p p` on the same dentry) and
`remove_tree` — satisfies it again, whether the operation succeeds or
fails. -/
theorem claim_C2_referential_integrity (H : Bytes → Nat) (fs : FS)
    (cache : Cache) (chunk_size : Nat) (verify : Bool)
    (p q : List Char) (d : Bytes) (h : RefInt fs) :
    RefInt (write_file H fs cache chunk_size p d).1 ∧
    RefInt (append_file H fs cache chunk_size verify p d).1 ∧
    RefInt (mkdir fs cache p).1 ∧
    RefInt (remove_file fs cache p).1 ∧
    RefInt (rmdir fs cache p).1 ∧
    RefInt (rename fs cache p q).1 ∧
    RefInt (remove_tree fs cache p).1 :=
  ⟨RefInt_write_file H fs cache chunk_size p d h,
   RefInt_append_file H fs cache chunk_size verify p d h,
   RefInt_mkdir fs cache p h,
   RefInt_remove_file fs cache p h,
   RefInt_rmdir fs cache p h,
   RefInt_rename fs cache p q h,
   RefInt_remove_tree fs cache p h⟩

/-- A database holding the root directory and one regular file `/f`
with a single chunk. -/
def fs_with_file : FS :=
  { inodes := [⟨1, 0o040755, 0, 2, 0, 0, 0⟩, ⟨2, 0o100644, 1, 1, 0, 0, 0⟩]
    dentries := [⟨1, ['f'], 2⟩]
    chunks := [⟨2, 0, [7], 0⟩]
    symlinks := []
    seq := 2
    clock := 0 }

/-- Concrete instance of the C2 invariant theorem: `rename /f /f` — the
same source and destination dentry — keeps referential integrity. -/
theorem claim_C2_referential_integrity_witness :
    RefInt fs_with_file ∧
    RefInt (rename fs_with_file [] ['/', 'f'] ['/', 'f']).1 :=
  ⟨by decide,
    (claim_C2_referential_integrity (fun _ => 0) fs_with_file [] 4096 false
      ['/', 'f'] ['/', 'f'] [] (by decide)).2.2.2.2.2.1⟩

/-! ## C10: intermediate path components are never checked to be directories -/

/-- C10. `ensure_parents` (used by `mkdir`, `write_file`, `append_file`
and both `rename` destinations) resolves an existing component with a
bare dentry lookup and recurses into whatever inode it finds — no
`is_dir` check on its mode — so a component that exists as a regular
file silently becomes the parent of the next dentry. Concretely, with
`/f` a regular file, `mkdir "/f/d"` succeeds and attaches the new
dentry beneath the file inode `2` instead of failing with
`NotADirectory`. -/
theorem claim_C10_no_directory_check (fs : FS) (cache : Cache)
    (cur : Nat) (c : List Char) (rest : List (List Char)) (i : Nat)
    (hcg : cacheGet cache cur c = none)
    (hlk : lookupDentry fs cur c = some i) :
    ensureLoop fs cache cur (c :: rest) =
      ensureLoop fs (cacheInsert cache cur c i) i rest ∧
    mkdir fs_with_file [] ['/', 'f', '/', 'd'] =
      ((mkdir fs_with_file [] ['/', 'f', '/', 'd']).1,
       (mkdir fs_with_file [] ['/', 'f', '/', 'd']).2.1, .ok ()) ∧
    (∃ st, findInode (mkdir fs_with_file [] ['/', 'f', '/', 'd']).1 2 =
      some st ∧ mode_is_file st.mode = true) ∧
    lookupDentry (mkdir fs_with_file [] ['/', 'f', '/', 'd']).1 2 ['d'] =
      some 3 := by
  refine ⟨?_, rfl, ⟨⟨2, 0o100644, 1, 1, 0, 0, 0⟩, rfl, rfl⟩, rfl⟩
  rw [ensureLoop]
  rw [hcg, hlk]

/-- Concrete instance of the C10 theorem: the resolution step under the
root accepts the file inode `2` of `/f` as the next parent. -/
theorem claim_C10_no_directory_check_witness :
    cacheGet [] 1 ['f'] = none ∧
    ensureLoop fs_with_file [] 1 [['f']] =
      ensureLoop fs_with_file (cacheInsert [] 1 ['f'] 2) 2 [] :=
  ⟨rfl, (claim_C10_no_directory_check fs_with_file [] 1 ['f'] [] 2
    rfl rfl).1⟩

/-! ## C4: checksums stored on write, verified on read -/

theorem enum_checksum (H : Bytes → Nat) (ino : Nat) (s : Nat)
    (l : List Bytes) :
    ∀ c ∈ enumChunks H ino s l, c.checksum = compute_checksum H c.data := by
  induction l generalizing s with
  | nil => simp [enumChunks]
  | cons x rest ih =>
    intro c hc
    rw [enumChunks] at hc
    rcases List.mem_cons.mp hc with h | h
    · subst h
      rfl
    · exact ih (s + 1) c h

/-- With verification on, the row loop fails on the first stored chunk
whose checksum disagrees with the recomputed hash — carrying the inode,
the chunk index, the stored (expected) checksum and the recomputed
(actual) one — and reassembles the bytes when every row agrees. -/
theorem readRowsLoop_verify_char (H : Bytes → Nat) (ino : Nat)
    (rows : List Chunk) :
    readRowsLoop H true ino rows =
      match rows.find? (fun c => !(compute_checksum H c.data = c.checksum)) with
      | some c => .error (.checksumMismatch ino c.chunk_index c.checksum
          (compute_checksum H c.data))
      | none => .ok (rows.map (fun c => c.data)).flatten := by
  induction rows with
  | nil => rfl
  | cons c rest ih =>
    rw [readRowsLoop, if_pos rfl]
    by_cases hc : compute_checksum H c.data = c.checksum
    · have hvc : verify_checksum H c.data c.checksum ino c.chunk_index =
          .ok () := by
        simp only [verify_checksum, if_pos hc]
      rw [hvc, ih]
      have hfc : (c :: rest).find?
          (fun c2 => !(compute_checksum H c2.data = c2.checksum)) =
          rest.find? (fun c2 => !(compute_checksum H c2.data = c2.checksum)) := by
        rw [List.find?_cons_of_neg]
        simp [hc]
      rw [hfc]
      cases hf : rest.find?
          (fun c2 => !(compute_checksum H c2.data = c2.checksum)) with
      | none => simp
      | some c2 => simp
    · have hvc : verify_checksum H c.data c.checksum ino c.chunk_index =
          .error (.checksumMismatch ino c.chunk_index c.checksum
            (compute_checksum H c.data)) := by
        simp only [verify_checksum, if_neg hc]
      rw [hvc]
      have hfc : (c :: rest).find?
          (fun c2 => !(compute_checksum H c2.data = c2.checksum)) = some c := by
        rw [List.find?_cons_of_pos]
        simp [hc]
      rw [hfc]

/-- With verification off, the row loop never fails: it returns the
stored bytes in row order. -/
theorem readRowsLoop_noverify (H : Bytes → Nat) (ino : Nat)
    (rows : List Chunk) :
    readRowsLoop H false ino rows = .ok (rows.map (fun c => c.data)).flatten := by
  induction rows with
  | nil => rfl
  | cons c rest ih =>
    rw [readRowsLoop, if_neg (by simp), ih]
    simp

theorem read_file_data_val (H : Bytes → Nat) (fs : FS) (ino : Nat)
    (verify qo : Bool) :
    (read_file_data H fs ino verify qo).2 =
      readRowsLoop H verify ino (sortByKey (fun c => c.chunk_index)
        (fs.chunks.filter (fun c => c.ino = ino))) := by
  simp only [read_file_data]
  split
  · next e heq => simp [heq]
  · next bs heq => simp [heq]

/-- When the path resolves to a regular file inode, the result value of
`read_file` is exactly what the row loop computes on that inode's sorted
chunk rows. -/
theorem read_file_val (H : Bytes → Nat) (fs : FS) (cache cache1 : Cache)
    (verify : Bool) (p : List Char) (ino : Nat) (st : Inode)
    (hres : resolve_path fs cache p = (cache1, .ok ino))
    (hst : findInode fs ino = some st)
    (hfile : mode_is_file st.mode = true) :
    (read_file H fs cache verify p).2.2 =
      readRowsLoop H verify ino (sortByKey (fun c => c.chunk_index)
        (fs.chunks.filter (fun c => c.ino = ino))) := by
  rw [read_file]
  split
  · next cache2 e heq =>
    rw [hres] at heq
    simp at heq
  · next cache2 ino2 heq =>
    rw [hres] at heq
    simp only [Prod.mk.injEq, Except.ok.injEq] at heq
    obtain ⟨hc2, hi2⟩ := heq
    subst hc2 hi2
    simp only [stat_ino, hst]
    rw [hfile]
    simp only [Bool.not_true, Bool.false_eq_true, if_false]
    exact read_file_data_val H fs ino verify true

/-- C4. Every chunk row a write inserts stores
`checksum = xxh3_64(chunk bytes)`; and when a path resolves to a regular
file inode with sorted chunk rows `rows`: with `verify_checksums` on,
`read_file` fails if and only if some stored row's checksum differs from
the recomputed hash of its stored bytes — the error being
`ChecksumMismatch` carrying `(ino, chunk_index, expected, actual)` for
the first such row — while with verification off the same read returns
the stored bytes without error. -/
theorem claim_C4_checksum_verification (H : Bytes → Nat) (fs : FS)
    (cache cache1 : Cache) (p : List Char) (ino : Nat) (st : Inode)
    (hres : resolve_path fs cache p = (cache1, .ok ino))
    (hst : findInode fs ino = some st)
    (hfile : mode_is_file st.mode = true) :
    ∀ rows, rows = sortByKey (fun c => c.chunk_index)
        (fs.chunks.filter (fun c => c.ino = ino)) →
      (∀ ino2 s l c, c ∈ enumChunks H ino2 s l →
        c.checksum = compute_checksum H c.data) ∧
      ((read_file H fs cache true p).2.2 =
        match rows.find? (fun c => !(compute_checksum H c.data = c.checksum)) with
        | some c => .error (.checksumMismatch ino c.chunk_index c.checksum
            (compute_checksum H c.data))
        | none => .ok (rows.map (fun c => c.data)).flatten) ∧
      ((∃ idx expected actual, (read_file H fs cache true p).2.2 =
          .error (.checksumMismatch ino idx expected actual)) ↔
        ∃ c ∈ rows, compute_checksum H c.data ≠ c.checksum) ∧
      (read_file H fs cache false p).2.2 =
        .ok (rows.map (fun c => c.data)).flatten := by
  intro rows hrows
  subst hrows
  have hchar : (read_file H fs cache true p).2.2 =
      match (sortByKey (fun c => c.chunk_index)
          (fs.chunks.filter (fun c => c.ino = ino))).find?
          (fun c => !(compute_checksum H c.data = c.checksum)) with
      | some c => .error (.checksumMismatch ino c.chunk_index c.checksum
          (compute_checksum H c.data))
      | none => .ok ((sortByKey (fun c => c.chunk_index)
          (fs.chunks.filter (fun c => c.ino = ino))).map
            (fun c => c.data)).flatten := by
    rw [read_file_val H fs cache cache1 true p ino st hres hst hfile]
    exact readRowsLoop_verify_char H ino _
  refine ⟨fun ino2 s l c hc => enum_checksum H ino2 s l c hc, hchar, ?_, ?_⟩
  · rw [hchar]
    cases hf : (sortByKey (fun c => c.chunk_index)
        (fs.chunks.filter (fun c => c.ino = ino))).find?
        (fun c => !(compute_checksum H c.data = c.checksum)) with
    | none =>
      constructor
      · intro hcon
        obtain ⟨idx, expected, actual, hcon⟩ := hcon
        exact Except.noConfusion hcon
      · intro hcon
        obtain ⟨c, hm, hne⟩ := hcon
        have := List.find?_eq_none.mp hf c hm
        simp only [Bool.not_eq_true', decide_eq_false_iff_not] at this
        exact absurd this (by simpa using hne)
    | some c =>
      constructor
      · intro _
        refine ⟨c, List.mem_of_find?_eq_some hf, ?_⟩
        have := List.find?_some hf
        simpa using this
      · intro _
        exact ⟨c.chunk_index, c.checksum, compute_checksum H c.data, rfl⟩
  · rw [read_file_val H fs cache cache1 false p ino st hres hst hfile]
    exact readRowsLoop_noverify H ino _

/-- Concrete instance of the C4 theorem on `/f` holding one chunk `[7]`
with stored checksum `0`, recomputed hash constantly `1`: the verifying
read fails with the structured mismatch, the non-verifying read returns
the bytes. -/
theorem claim_C4_checksum_verification_witness :
    findInode fs_with_file 2 = some ⟨2, 0o100644, 1, 1, 0, 0, 0⟩ ∧
    (read_file (fun _ => 1) fs_with_file [] true ['/', 'f']).2.2 =
      .error (.checksumMismatch 2 0 0 1) ∧
    (read_file (fun _ => 1) fs_with_file [] false ['/', 'f']).2.2 =
      .ok [7] := by
  have h := claim_C4_checksum_verification (fun _ => 1) fs_with_file []
    (resolve_path fs_with_file [] ['/', 'f']).1 ['/', 'f'] 2
    ⟨2, 0o100644, 1, 1, 0, 0, 0⟩ rfl rfl rfl
    [⟨2, 0, [7], 0⟩] rfl
  exact ⟨rfl, h.2.1.trans rfl, h.2.2.2.trans rfl⟩

/-! ## C6: glob translation versus `LIKE` without an `ESCAPE` clause -/

/-- C6 (amended). For glob patterns free of literal `%` and `_`, the
`glob_to_sql` translation composed with SQLite's `LIKE` (as issued by
`search`, which attaches no `ESCAPE` clause) realises exactly the glob
semantics: `*` matches any character sequence, `?` exactly one
character, anything else itself up to ASCII case folding. (The original
claim extended this to patterns with literal `%`/`_` via backslash
escaping; without an `ESCAPE` clause the inserted backslash is a
literal character, which `claim_C6_escape_counterexample` refutes.) -/
theorem claim_C6_glob_to_like (pattern : List Char) :
    ∀ s, '%' ∉ pattern → '_' ∉ pattern →
      likeMatch (glob_to_sql pattern) s = globMatch pattern s := by
  induction pattern with
  | nil =>
    intro s _ _
    rw [glob_to_sql, likeMatch, globMatch]
  | cons c p ihp =>
    intro s hpc hu
    have hpc' : '%' ∉ p := fun h => hpc (List.mem_cons_of_mem c h)
    have hu' : '_' ∉ p := fun h => hu (List.mem_cons_of_mem c h)
    have hcp : c ≠ '%' := fun h => hpc (h ▸ List.mem_cons_self c p)
    have hcu : c ≠ '_' := fun h => hu (h ▸ List.mem_cons_self c p)
    by_cases hstar : c = '*'
    · subst hstar
      have hgs : glob_to_sql ('*' :: p) = '%' :: glob_to_sql p := by
        rw [glob_to_sql]
        rfl
      induction s with
      | nil =>
        rw [hgs, likeMatch, globMatch]
        simp only [if_pos rfl]
        rw [ihp [] hpc' hu']
      | cons ch s2 ihs =>
        rw [hgs, likeMatch, globMatch]
        simp only [if_pos rfl]
        rw [ihp (ch :: s2) hpc' hu', ← hgs, ihs]
        simp
    · by_cases hq : c = '?'
      · subst hq
        have hgs : glob_to_sql ('?' :: p) = '_' :: glob_to_sql p := by
          rw [glob_to_sql]
          rfl
        cases s with
        | nil =>
          rw [hgs, likeMatch, globMatch]
          simp
        | cons ch s2 =>
          rw [hgs, likeMatch, globMatch]
          simp only [if_pos rfl]
          simp [ihp s2 hpc' hu']
      · have hgs : glob_to_sql (c :: p) = c :: glob_to_sql p := by
          rw [glob_to_sql, if_neg hstar, if_neg hq, if_neg hcp, if_neg hcu]
          rfl
        cases s with
        | nil =>
          rw [hgs, likeMatch, globMatch]
          simp only [if_neg hcp, if_neg hstar]
        | cons ch s2 =>
          rw [hgs, likeMatch, globMatch]
          simp only [if_neg hcp, if_neg hstar, if_neg hcu, if_neg hq]
          rw [ihp s2 hpc' hu']

/-- Concrete instance of the C6 refinement: the pattern `*.md` (no
literal `%` or `_`) matches through `LIKE` exactly as the glob does. -/
theorem claim_C6_glob_to_like_witness :
    '%' ∉ ['*', '.', 'm', 'd'] ∧
    likeMatch (glob_to_sql ['*', '.', 'm', 'd']) ['n', '.', 'm', 'd'] =
      globMatch ['*', '.', 'm', 'd'] ['n', '.', 'm', 'd'] :=
  ⟨by decide, claim_C6_glob_to_like ['*', '.', 'm', 'd'] ['n', '.', 'm', 'd']
    (by decide) (by decide)⟩

/-- A database holding one regular file literally named `a%b` under the
root. -/
def fs_pct : FS :=
  { inodes := [⟨1, 0o040755, 0, 2, 0, 0, 0⟩, ⟨2, 0o100644, 0, 1, 0, 0, 0⟩]
    dentries := [⟨1, ['a', '%', 'b'], 2⟩]
    chunks := []
    symlinks := []
    seq := 2
    clock := 0 }

/-- C6, counterexample to the original claim: the backslash `glob_to_sql`
inserts before a literal `%` is not an escape for the `ESCAPE`-less
`LIKE` that `search` issues. The glob `a%b` should match exactly the
name `a%b`, but the translated pattern `a\%b` fails to match it (so
`search` misses the file of that name entirely) and instead matches the
unrelated name `a\zb`. -/
theorem claim_C6_escape_counterexample :
    glob_to_sql ['a', '%', 'b'] = ['a', '\\', '%', 'b'] ∧
    globMatch ['a', '%', 'b'] ['a', '%', 'b'] = true ∧
    likeMatch (glob_to_sql ['a', '%', 'b']) ['a', '%', 'b'] = false ∧
    likeMatch (glob_to_sql ['a', '%', 'b']) ['a', '\\', 'z', 'b'] = true ∧
    search fs_pct ['a', '%', 'b'] = .ok [] := by
  refine ⟨by simp [glob_to_sql], by simp [globMatch, asciiLower], ?_, ?_, ?_⟩
  · simp [glob_to_sql, likeMatch, asciiLower]
  · simp [glob_to_sql, likeMatch, asciiLower]
  · have hlm : likeMatch ['a', '\\', '%', 'b'] ['a', '%', 'b'] = false := by
      simp [likeMatch, asciiLower]
    have hgs : glob_to_sql ['a', '%', 'b'] = ['a', '\\', '%', 'b'] := by
      simp [glob_to_sql]
    rw [search, hgs]
    simp [searchRows, fs_pct, findInode, hlm, searchResLoop]

/-! ## C3: schema versioning and migration (`schema.rs`, `lib.rs`) -/

/-- `SCHEMA_VERSION` (`schema.rs` line 7). -/
def SCHEMA_VERSION : Nat := 2

/-- Table names the `SCHEMA_V1` DDL batch creates. -/
def V1_TABLES : List (List Char) :=
  ["agentfs_meta".toList, "fs_inode".toList, "fs_dentry".toList,
   "fs_data".toList, "fs_symlink".toList, "kv_store".toList,
   "tool_calls".toList]

/-- Table names the `SCHEMA_V2_ADDITIONS` DDL batch creates. -/
def V2_ADDITION_TABLES : List (List Char) :=
  ["sessions".toList, "token_usage".toList, "events".toList]

/-- The schema-level view of the database: which tables exist
(`sqlite_master`), the parsed `schema_version` meta row (the
`u32 → to_string → parse` round trip is the identity, so the value
enters the model as a number, `none` when the row is missing), the
`kv_store` rows, and whether `tool_calls` has the `session_id`
column. -/
structure SchemaDB where
  tables : List (List Char)
  schema_version : Option Nat
  kv : List (List Char × List Char)
  tool_calls_session_id : Bool
deriving Repr, DecidableEq

/-- `SELECT COUNT(*) > 0 FROM sqlite_master WHERE type='table' AND
name=?`. -/
def hasTable (db : SchemaDB) (t : List Char) : Bool := decide (t ∈ db.tables)

/-- `get_schema_version` (`schema.rs`); a missing row or table surfaces
as a SQLite error. -/
def get_schema_version (db : SchemaDB) : Except Err Nat :=
  match db.schema_version with
  | some v => .ok v
  | none => .error .sqliteErr

/-- One `execute_batch` of `CREATE TABLE IF NOT EXISTS` statements: the
missing table names are added. -/
def createTables (db : SchemaDB) (ts : List (List Char)) : SchemaDB :=
  { db with tables := db.tables ++ ts.filter (fun t => !(hasTable db t)) }

/-- `migrate_v1_to_v2` (`schema.rs`): `ALTER TABLE tool_calls ADD COLUMN
session_id`, the `SCHEMA_V2_ADDITIONS` batch, then the version row
update. -/
def migrate_v1_to_v2 (db : SchemaDB) : SchemaDB :=
  let db1 : SchemaDB := { db with tool_calls_session_id := true }
  let db2 := createTables db1 V2_ADDITION_TABLES
  { db2 with schema_version := some SCHEMA_VERSION }

/-- `init_schema` (`schema.rs`): on an existing `agentfs_meta` accept
only the current version, else create the full current DDL and the meta
rows (the root inode, `chunk_size` and `created_at` rows live in the
filesystem model). The returned flag is Rust's "newly created". -/
def init_schema (db : SchemaDB) : Except Err (SchemaDB × Bool) :=
  if hasTable db "agentfs_meta".toList then
    match get_schema_version db with
    | .error e => .error e
    | .ok v =>
      if v = SCHEMA_VERSION then .ok (db, false)
      else .error (.schemaMismatch SCHEMA_VERSION v)
  else
    .ok ({ createTables (createTables db V1_TABLES) V2_ADDITION_TABLES with
           schema_version := some SCHEMA_VERSION }, true)

/-- `migrate` (`schema.rs`). -/
def migrate (db : SchemaDB) : Except Err SchemaDB :=
  if !(hasTable db "agentfs_meta".toList) then
    match init_schema db with
    | .error e => .error e
    | .ok (db1, _) => .ok db1
  else
    match get_schema_version db with
    | .error e => .error e
    | .ok v =>
      if v = SCHEMA_VERSION then .ok db
      else if v = 1 then .ok (migrate_v1_to_v2 db)
      else .error (.schemaMismatch SCHEMA_VERSION v)

/-- The schema check `AgentFS::open` performs (`lib.rs`): read the
version and auto-migrate when it differs from the current one. -/
def open_check (db : SchemaDB) : Except Err SchemaDB :=
  match get_schema_version db with
  | .error e => .error e
  | .ok v => if v ≠ SCHEMA_VERSION then migrate db else .ok db

theorem hasTable_createTables (db : SchemaDB) (ts : List (List Char))
    (t : List Char) (ht : t ∈ ts) :
    hasTable (createTables db ts) t = true := by
  simp only [hasTable, createTables, decide_eq_true_eq]
  by_cases h : t ∈ db.tables
  · exact List.mem_append_left _ h
  · refine List.mem_append_right _ ?_
    rw [List.mem_filter]
    exact ⟨ht, by simp [hasTable, h]⟩

/-- C3 (amended). The current schema version is `2`, not `3`. Opening a
database whose `agentfs_meta` reports version `1` auto-migrates forward
without error: the reported version becomes the current `2`, the stored
`kv_store` rows are intact, the `sessions`, `token_usage` and `events`
tables (the actual v2 additions — this crate's schema has no
`memory_metadata` or `memory_fts`) exist, and `tool_calls` gains its
`session_id` column. Opening a database reporting any version other
than `1` or the current one fails with a schema-mismatch error carrying
the expected and found versions. -/
theorem claim_C3_schema_migration :
    SCHEMA_VERSION = 2 ∧
    (∀ db : SchemaDB, db.schema_version = some 1 →
      hasTable db "agentfs_meta".toList = true →
      open_check db = .ok (migrate_v1_to_v2 db) ∧
      get_schema_version (migrate_v1_to_v2 db) = .ok SCHEMA_VERSION ∧
      (migrate_v1_to_v2 db).kv = db.kv ∧
      (∀ t ∈ V2_ADDITION_TABLES, hasTable (migrate_v1_to_v2 db) t = true) ∧
      (migrate_v1_to_v2 db).tool_calls_session_id = true) ∧
    (∀ db : SchemaDB, ∀ v, db.schema_version = some v →
      hasTable db "agentfs_meta".toList = true →
      v ≠ SCHEMA_VERSION → v ≠ 1 →
      open_check db = .error (.schemaMismatch SCHEMA_VERSION v)) := by
  refine ⟨rfl, ?_, ?_⟩
  · intro db hv hmeta
    have hmeta2 : hasTable db
        ['a', 'g', 'e', 'n', 't', 'f', 's', '_', 'm', 'e', 't', 'a'] = true :=
      hmeta
    have hopen : open_check db = .ok (migrate_v1_to_v2 db) := by
      simp [open_check, get_schema_version, hv, migrate, hmeta2, SCHEMA_VERSION]
    refine ⟨hopen, ?_, ?_, ?_, ?_⟩
    · rw [migrate_v1_to_v2]
      rfl
    · rw [migrate_v1_to_v2]
      rfl
    · intro t ht
      show hasTable { createTables { db with tool_calls_session_id := true }
          V2_ADDITION_TABLES with schema_version := some SCHEMA_VERSION } t = true
      have h1 := hasTable_createTables { db with tool_calls_session_id := true }
        V2_ADDITION_TABLES t ht
      simpa [hasTable, createTables] using h1
    · rw [migrate_v1_to_v2]
      rfl
  · intro db v hv hmeta hne hne1
    have hmeta2 : hasTable db
        ['a', 'g', 'e', 'n', 't', 'f', 's', '_', 'm', 'e', 't', 'a'] = true :=
      hmeta
    simp [open_check, get_schema_version, hv, migrate, hmeta2, hne, hne1]

/-- A database at schema v1: the v1 tables, version row `1`, one stored
KV pair. -/
def v1_db : SchemaDB :=
  { tables := V1_TABLES
    schema_version := some 1
    kv := [("k".toList, "v".toList)]
    tool_calls_session_id := false }

/-- Concrete instance of the C3 theorem: opening the v1 database
auto-migrates it. -/
theorem claim_C3_schema_migration_witness :
    v1_db.schema_version = some 1 ∧
    open_check v1_db = .ok (migrate_v1_to_v2 v1_db) ∧
    (migrate_v1_to_v2 v1_db).kv = v1_db.kv :=
  ⟨rfl, (claim_C3_schema_migration.2.1 v1_db rfl (by decide)).1,
    (claim_C3_schema_migration.2.1 v1_db rfl (by decide)).2.2.1⟩

/-- C3, counterexample to the original claim: the current schema version
is `2`, not `3`; migrating the v1 database reports version `2`
afterwards, and creates no `memory_metadata` or `memory_fts` table —
neither name occurs in any DDL batch of `schema.rs`. -/
theorem claim_C3_counterexample :
    SCHEMA_VERSION ≠ 3 ∧
    get_schema_version (migrate_v1_to_v2 v1_db) = .ok 2 ∧
    get_schema_version (migrate_v1_to_v2 v1_db) ≠ .ok 3 ∧
    hasTable (migrate_v1_to_v2 v1_db) "memory_metadata".toList = false ∧
    hasTable (migrate_v1_to_v2 v1_db) "memory_fts".toList = false ∧
    "memory_metadata".toList ∉ V1_TABLES ++ V2_ADDITION_TABLES ∧
    "memory_fts".toList ∉ V1_TABLES ++ V2_ADDITION_TABLES := by
  have hgv : get_schema_version (migrate_v1_to_v2 v1_db) = .ok 2 := rfl
  refine ⟨by decide, hgv, ?_, by decide, by decide, by decide, by decide⟩
  rw [hgv]
  intro h
  simp at h

/-! ## C7: the reflection trigger (`reflector.rs`) -/

/-- A chat message (`api::Message`): role and the `content.as_str()`
view (`some` when the JSON content is a string). -/
structure Message where
  role : List Char
  content : Option (List Char)
deriving Repr, DecidableEq

/-- A tool result: the only field `should_reflect` consults is
`r.get("is_error").and_then(as_bool)`. -/
structure ToolRes where
  is_error : Option Bool
deriving Repr, DecidableEq

/-- `pat` is a prefix of `s`. -/
def prefixAt : List Char → List Char → Bool
  | [], _ => true
  | _ :: _, [] => false
  | c :: p, d :: s => c = d && prefixAt p s

/-- Rust `str::contains(pat)`: `pat` occurs as a contiguous substring
of `s`. -/
def containsSub (s pat : List Char) : Bool :=
  match s with
  | [] => pat.isEmpty
  | _ :: rest => prefixAt pat s || containsSub rest pat

/-- The apostrophe character (escaping keeps the source lists exact). -/
def apos : Char := Char.ofNat 39

/-- The `correction_signals` array of `should_reflect`, verbatim:
`no,` `wrong` `incorrect` `that's not` `don't` `instead` `actually,`
`fix` `not what I` — the last one keeps its uppercase `I`. -/
def correction_signals : List (List Char) :=
  ["no,".toList, "wrong".toList, "incorrect".toList,
   ['t', 'h', 'a', 't', apos, 's', ' ', 'n', 'o', 't'],
   ['d', 'o', 'n', apos, 't'],
   "instead".toList, "actually,".toList, "fix".toList,
   "not what I".toList]

/-- `Reflector::should_reflect` (`reflector.rs`): tool error, else
correction keyword in the lower-cased most recent user message, else
more than two tool results. (`str::to_lowercase` enters the model as
per-character ASCII lowering, which agrees with it on ASCII text — all
the inputs the keyword list can interact with.) -/
def should_reflect (messages : List Message) (tool_results : List ToolRes) :
    Bool :=
  if tool_results.any (fun r => r.is_error.getD false) then true
  else
    match messages.reverse.find? (fun m => m.role = "user".toList) with
    | some m =>
      match m.content with
      | some text =>
        if correction_signals.any
            (fun sig => containsSub (text.map asciiLower) sig) then true
        else decide (tool_results.length > 2)
      | none => decide (tool_results.length > 2)
    | none => decide (tool_results.length > 2)

/-- The trigger policy as the claim words it: an erroring tool result,
or a correction keyword occurring in the most recent user message, or
more than two tool results. -/
def spec_should_reflect (messages : List Message)
    (tool_results : List ToolRes) : Bool :=
  tool_results.any (fun r => r.is_error.getD false) ||
  (match messages.reverse.find? (fun m => m.role = "user".toList) with
   | some m =>
     match m.content with
     | some text => correction_signals.any (fun sig => containsSub text sig)
     | none => false
   | none => false) ||
  decide (tool_results.length > 2)

/-- C7. The claimed trigger policy does not hold: the keyword
`not what I` is dead code. `should_reflect` lower-cases the user message
before scanning, but the signal string retains its uppercase `I`, so no
lower-cased text can ever contain it. On the message
`that is not what I wanted` with no tool results — where the keyword
occurs verbatim, no other listed keyword occurs even after lowering,
and triggers (a) and (c) are off — the policy of the claim fires, yet
`should_reflect` returns `false`. -/
theorem claim_C7_should_reflect_dead_keyword :
    "not what I".toList ∈ correction_signals ∧
    containsSub "that is not what I wanted".toList "not what I".toList = true ∧
    spec_should_reflect
      [⟨"user".toList, some "that is not what I wanted".toList⟩] [] = true ∧
    should_reflect
      [⟨"user".toList, some "that is not what I wanted".toList⟩] [] = false := by
  refine ⟨by decide, by decide, by decide, by decide⟩

/-! ## C8: the OpenAI-compatible stream parser (`streaming.rs`)

Chunks enter the model already decoded (`serde_json` is external): a
data line that is neither `[DONE]` nor valid JSON is skipped by the
Rust loop and carries no information, so the model receives the list
of decoded chunk values. -/

/-- `ContentBlockType`. -/
inductive BlockType where
  | text
  | toolUse (id : List Char) (name : List Char)
deriving Repr, DecidableEq

/-- `StreamEvent` (the variants this parser can emit). -/
inductive StreamEvent where
  | messageStart (id : List Char) (input_tokens : Nat)
  | contentBlockStart (index : Nat) (block_type : BlockType)
  | textDelta (index : Nat) (text : List Char)
  | inputJsonDelta (index : Nat) (pjson : List Char)
  | contentBlockStop (index : Nat)
  | messageDelta (stop_reason : List Char) (output_tokens : Nat)
  | messageStop
deriving Repr, DecidableEq

/-- One `tool_calls[i]` delta: `index` (`unwrap_or(0)` applied), the
optional `id`, `function.name` (`unwrap_or("")` applied) and the
optional nonempty-checked `function.arguments`. -/
structure ToolCallDelta where
  index : Nat
  id : Option (List Char)
  name : List Char
  args : Option (List Char)
deriving Repr, DecidableEq

/-- A `choices[j].delta` object. -/
structure Delta where
  content : Option (List Char)
  tool_calls : Option (List ToolCallDelta)
deriving Repr, DecidableEq

/-- A `choices[j]` object; `finish_reason` has `unwrap_or("")`
applied. -/
structure Choice where
  finish_reason : List Char
  delta : Option Delta
deriving Repr, DecidableEq

/-- One decoded chunk: `id` (`unwrap_or("")` applied), the optional
`usage` pair `(prompt_tokens, completion_tokens)` and the optional
`choices` array. -/
structure OAChunk where
  id : List Char
  usage : Option (Nat × Nat)
  choices : Option (List Choice)
deriving Repr, DecidableEq

/-- `OpenAIStreamParser`'s state. -/
structure OAState where
  open_tool_indices : List Nat
  has_text_content : Bool
deriving Repr, DecidableEq

/-- `OpenAIStreamParser::new()`. -/
def OAState.new : OAState := ⟨[], false⟩

/-- The per-tool-call body of the `for tc in tool_calls` loop. -/
def processToolCall (s : OAState) (tc : ToolCallDelta) :
    OAState × List StreamEvent :=
  let block_index := tc.index + 1
  match tc.id with
  | some tc_id =>
    let s1 := if s.open_tool_indices.contains block_index then s
      else { s with open_tool_indices := s.open_tool_indices ++ [block_index] }
    let ev2 := match tc.args with
      | some a => if a.isEmpty then [] else [.inputJsonDelta block_index a]
      | none => []
    (s1, .contentBlockStart block_index (.toolUse tc_id tc.name) :: ev2)
  | none =>
    match tc.args with
    | some a => (s, if a.isEmpty then [] else [.inputJsonDelta block_index a])
    | none => (s, [])

def processToolCalls (s : OAState) : List ToolCallDelta →
    OAState × List StreamEvent
  | [] => (s, [])
  | tc :: rest =>
    match processToolCall s tc with
    | (s1, evs1) =>
      match processToolCalls s1 rest with
      | (s2, evs2) => (s2, evs1 ++ evs2)

/-- The per-choice body of the `for choice in choices` loop: text
delta, tool-call deltas, then the `finish_reason` handling. -/
def processChoice (s : OAState) (ch : Choice) : OAState × List StreamEvent :=
  let (s1, evs1) :=
    match ch.delta with
    | none => (s, [])
    | some d =>
      let (sA, evA) :=
        match d.content with
        | some c =>
          if c.isEmpty then (s, [])
          else ({ s with has_text_content := true },
            [StreamEvent.textDelta 0 c])
        | none => (s, [])
      match d.tool_calls with
      | some tcs =>
        match processToolCalls sA tcs with
        | (sB, evB) => (sB, evA ++ evB)
      | none => (sA, evA)
  if ch.finish_reason = "stop".toList then
    (s1, evs1 ++
      (if s1.has_text_content then [StreamEvent.contentBlockStop 0] else []) ++
      [.messageDelta "end_turn".toList 0])
  else if ch.finish_reason = "tool_calls".toList then
    ({ s1 with open_tool_indices := [] },
     evs1 ++ StreamEvent.contentBlockStop 0 ::
       s1.open_tool_indices.map (fun i => StreamEvent.contentBlockStop i) ++
       [.messageDelta "tool_use".toList 0])
  else (s1, evs1)

def processChoices (s : OAState) : List Choice → OAState × List StreamEvent
  | [] => (s, [])
  | ch :: rest =>
    match processChoice s ch with
    | (s1, evs1) =>
      match processChoices s1 rest with
      | (s2, evs2) => (s2, evs1 ++ evs2)

/-- `OpenAIStreamParser::parse` on one decoded chunk: the usage events,
then the choices loop. -/
def processChunk (s : OAState) (c : OAChunk) : OAState × List StreamEvent :=
  let evU :=
    match c.usage with
    | some (inp, out) =>
      (if 0 < inp then [StreamEvent.messageStart c.id inp] else []) ++
      (if 0 < out then [StreamEvent.messageDelta "end_turn".toList out] else [])
    | none => []
  match c.choices with
  | none => (s, evU)
  | some chs =>
    match processChoices s chs with
    | (s1, evs) => (s1, evU ++ evs)

/-- The parser run over a stream of decoded chunks. -/
def oaParse (s : OAState) : List OAChunk → OAState × List StreamEvent
  | [] => (s, [])
  | c :: rest =>
    match processChunk s c with
    | (s1, evs1) =>
      match oaParse s1 rest with
      | (s2, evs2) => (s2, evs1 ++ evs2)

/-- C8. The stateful parser's tool-call lifecycle: (a) a `tool_calls[i]`
delta carrying an `id` emits `ContentBlockStart` at block index `i + 1`
(text owns index 0) and records that index as open; (b) a delta without
an `id` changes no state and emits at most an `InputJsonDelta` against
the same index `i + 1`; (c) a choice with
`finish_reason = "tool_calls"` (and no delta payload) emits
`ContentBlockStop{0}`, then one `ContentBlockStop` per open tool index,
empties the open set, and ends with `MessageDelta{tool_use}`; (d) a
three-chunk stream (open with initial arguments, argument continuation,
finish) produces exactly that event sequence end to end. -/
theorem claim_C8_stream_tool_lifecycle :
    (∀ s tc tc_id, tc.id = some tc_id →
      (processToolCall s tc).2.head? =
        some (.contentBlockStart (tc.index + 1) (.toolUse tc_id tc.name)) ∧
      (tc.index + 1) ∈ (processToolCall s tc).1.open_tool_indices) ∧
    (∀ s tc, tc.id = none →
      (processToolCall s tc).1 = s ∧
      ((processToolCall s tc).2 = [] ∨
        ∃ a, tc.args = some a ∧
          (processToolCall s tc).2 = [.inputJsonDelta (tc.index + 1) a])) ∧
    (∀ s ch, ch.finish_reason = "tool_calls".toList → ch.delta = none →
      processChoice s ch = ({ s with open_tool_indices := [] },
        StreamEvent.contentBlockStop 0 ::
          s.open_tool_indices.map (fun i => StreamEvent.contentBlockStop i) ++
          [.messageDelta "tool_use".toList 0])) ∧
    oaParse OAState.new
      [⟨"chatcmpl-1".toList, none, some [⟨[], some ⟨none, some
          [⟨0, some "call_1".toList, "get_files".toList, some "xy".toList⟩]⟩⟩]⟩,
       ⟨"chatcmpl-1".toList, none, some [⟨[], some ⟨none, some
          [⟨0, none, [], some "z".toList⟩]⟩⟩]⟩,
       ⟨"chatcmpl-1".toList, none, some [⟨"tool_calls".toList,
          some ⟨none, none⟩⟩]⟩] =
      (OAState.new,
       [.contentBlockStart 1 (.toolUse "call_1".toList "get_files".toList),
        .inputJsonDelta 1 "xy".toList,
        .inputJsonDelta 1 "z".toList,
        .contentBlockStop 0, .contentBlockStop 1,
        .messageDelta "tool_use".toList 0]) := by
  refine ⟨?_, ?_, ?_, by decide⟩
  · intro s tc tc_id hid
    simp only [processToolCall, hid]
    constructor
    · cases tc.args with
      | none => simp
      | some a => by_cases ha : a.isEmpty <;> simp [ha]
    · by_cases hc : s.open_tool_indices.contains (tc.index + 1)
      · simp only [hc, if_true]
        exact List.mem_of_elem_eq_true hc
      · simp only [hc, if_false]
        simp
  · intro s tc hid
    simp only [processToolCall, hid]
    cases harg : tc.args with
    | none => exact ⟨rfl, Or.inl rfl⟩
    | some a =>
      refine ⟨rfl, ?_⟩
      by_cases ha : a.isEmpty
      · exact Or.inl (by simp [ha])
      · exact Or.inr ⟨a, rfl, by simp [ha]⟩
  · intro s ch hfin hdelta
    simp [processChoice, hdelta, hfin]

/-- Concrete instance of the C8 lifecycle theorem: an opening tool-call
delta records block index 1 as open. -/
theorem claim_C8_stream_tool_lifecycle_witness :
    (⟨0, some "call_1".toList, "get_files".toList, none⟩ : ToolCallDelta).id =
      some "call_1".toList ∧
    (0 + 1) ∈ (processToolCall OAState.new
      ⟨0, some "call_1".toList, "get_files".toList, none⟩).1.open_tool_indices :=
  ⟨rfl, (claim_C8_stream_tool_lifecycle.1 OAState.new
    ⟨0, some "call_1".toList, "get_files".toList, none⟩
    "call_1".toList rfl).2⟩

/-! ## C9: tier rebalancing (`tiers.rs`)

Scores are `f64` in Rust, computed by `compute_score` from decayed
helpfulness, recency and access frequency and compared with
`partial_cmp(..).unwrap_or(Equal)`; the model takes the already-computed
scores as rationals (the comparisons below are total on every value
`compute_score` can produce — `NaN` would need a `NaN` input). -/

/-- `MemoryTier`. -/
inductive Tier where
  | hot
  | warm
  | cold
deriving Repr, DecidableEq

/-- A `memory_metadata` row joined with its computed score: `key`
(primary key, entering as a number), score, stored tier. -/
structure MemRow where
  key : Nat
  score : ℚ
  tier : Tier
deriving Repr, DecidableEq

/-- `ScoredEntry`. -/
structure ScoredEntry where
  key : Nat
  score : ℚ
  tier : Tier
deriving Repr, DecidableEq

/-- Insert into a descending-sorted list, after existing entries of
equal score (the stable `sort_by` order). -/
def insertScoredDesc (e : ScoredEntry) : List ScoredEntry → List ScoredEntry
  | [] => [e]
  | a :: rest =>
    if a.score < e.score then e :: a :: rest
    else a :: insertScoredDesc e rest

/-- `scored.sort_by(|a, b| b.score.partial_cmp(&a.score) ...)`: stable
sort by score descending. -/
def sortScoredDesc : List ScoredEntry → List ScoredEntry
  | [] => []
  | e :: rest => insertScoredDesc e (sortScoredDesc rest)

/-- The tier-assignment loop: position `i` in the sorted order gets
`Hot` below `hot_budget`, else `Warm` at or above `cold_threshold`,
else `Cold`. -/
def assignTiers (hot_budget : Nat) (cold_threshold : ℚ) :
    Nat → List ScoredEntry → List ScoredEntry
  | _, [] => []
  | i, e :: rest =>
    { e with tier :=
        if i < hot_budget then Tier.hot
        else if cold_threshold ≤ e.score then Tier.warm
        else Tier.cold } ::
      assignTiers hot_budget cold_threshold (i + 1) rest

/-- `TierManager::rebalance`: read all rows (their stored tier is the
placeholder-independent DB value the `UPDATE ... WHERE tier != ?1`
compares against), sort by score descending, assign tiers by position
and threshold, and count the rows whose tier changed. -/
def rebalance (hot_budget : Nat) (cold_threshold : ℚ)
    (rows : List MemRow) : List ScoredEntry × Nat :=
  let scored := rows.map (fun r => ScoredEntry.mk r.key r.score Tier.warm)
  let assigned := assignTiers hot_budget cold_threshold 0
    (sortScoredDesc scored)
  let changed := (assigned.filter (fun e =>
    match rows.find? (fun r => r.key = e.key) with
    | some r => decide (r.tier ≠ e.tier)
    | none => false)).length
  (assigned, changed)

theorem mem_insertScoredDesc (e x : ScoredEntry) (l : List ScoredEntry)
    (hx : x ∈ insertScoredDesc e l) : x = e ∨ x ∈ l := by
  induction l with
  | nil => simpa [insertScoredDesc] using hx
  | cons a rest ih =>
    rw [insertScoredDesc] at hx
    split at hx
    · rcases List.mem_cons.mp hx with h | h
      · exact Or.inl h
      · exact Or.inr h
    · rcases List.mem_cons.mp hx with h | h
      · exact Or.inr (h ▸ List.mem_cons_self a rest)
      · rcases ih h with h2 | h2
        · exact Or.inl h2
        · exact Or.inr (List.mem_cons_of_mem a h2)

theorem perm_insertScoredDesc (e : ScoredEntry) (l : List ScoredEntry) :
    List.Perm (insertScoredDesc e l) (e :: l) := by
  induction l with
  | nil => simp [insertScoredDesc]
  | cons a rest ih =>
    rw [insertScoredDesc]
    split
    · exact List.Perm.refl _
    · exact (List.Perm.cons a ih).trans (List.Perm.swap e a rest)

theorem perm_sortScoredDesc (l : List ScoredEntry) :
    List.Perm (sortScoredDesc l) l := by
  induction l with
  | nil => simp [sortScoredDesc]
  | cons e rest ih =>
    rw [sortScoredDesc]
    exact (perm_insertScoredDesc e (sortScoredDesc rest)).trans
      (List.Perm.cons e ih)

theorem sorted_insertScoredDesc (e : ScoredEntry) (l : List ScoredEntry)
    (hl : l.Pairwise (fun a b => b.score ≤ a.score)) :
    (insertScoredDesc e l).Pairwise (fun a b => b.score ≤ a.score) := by
  induction l with
  | nil => simp [insertScoredDesc]
  | cons a rest ih =>
    rw [List.pairwise_cons] at hl
    obtain ⟨ha, hrest⟩ := hl
    rw [insertScoredDesc]
    split
    · next hlt =>
      rw [List.pairwise_cons]
      refine ⟨?_, List.pairwise_cons.mpr ⟨ha, hrest⟩⟩
      intro x hx
      rcases List.mem_cons.mp hx with h | h
      · exact h ▸ le_of_lt hlt
      · exact le_trans (ha x h) (le_of_lt hlt)
    · next hnlt =>
      rw [List.pairwise_cons]
      refine ⟨?_, ih hrest⟩
      intro x hx
      rcases mem_insertScoredDesc e x rest hx with h | h
      · exact h ▸ le_of_not_lt hnlt
      · exact ha x h

theorem sorted_sortScoredDesc (l : List ScoredEntry) :
    (sortScoredDesc l).Pairwise (fun a b => b.score ≤ a.score) := by
  induction l with
  | nil => simp [sortScoredDesc]
  | cons e rest ih =>
    rw [sortScoredDesc]
    exact sorted_insertScoredDesc e (sortScoredDesc rest) ih

theorem assignTiers_keeps (hb : Nat) (ct : ℚ) (i : Nat)
    (l : List ScoredEntry) :
    (assignTiers hb ct i l).map (fun e => (e.key, e.score)) =
      l.map (fun e => (e.key, e.score)) := by
  induction l generalizing i with
  | nil => rfl
  | cons e rest ih =>
    rw [assignTiers, List.map_cons, List.map_cons, ih (i + 1)]

theorem assignTiers_length (hb : Nat) (ct : ℚ) (i : Nat)
    (l : List ScoredEntry) :
    (assignTiers hb ct i l).length = l.length := by
  induction l generalizing i with
  | nil => rfl
  | cons e rest ih =>
    rw [assignTiers, List.length_cons, List.length_cons, ih (i + 1)]

theorem assignTiers_getD (hb : Nat) (ct : ℚ) (i : Nat)
    (l : List ScoredEntry) (j : Nat) (hj : j < l.length) :
    (assignTiers hb ct i l).getD j ⟨0, 0, Tier.warm⟩ =
      { l.getD j ⟨0, 0, Tier.warm⟩ with tier :=
          if i + j < hb then Tier.hot
          else if ct ≤ (l.getD j ⟨0, 0, Tier.warm⟩).score then Tier.warm
          else Tier.cold } := by
  induction l generalizing i j with
  | nil => simp at hj
  | cons e rest ih =>
    rw [assignTiers]
    cases j with
    | zero => simp
    | succ k =>
      simp only [List.getD_cons_succ]
      rw [ih (i + 1) k (by simpa using hj)]
      have : i + 1 + k = i + (k + 1) := by omega
      rw [this]

theorem assignTiers_warm_ge (hb : Nat) (ct : ℚ) (i : Nat)
    (l : List ScoredEntry) :
    ∀ e ∈ assignTiers hb ct i l, e.tier = Tier.warm → ct ≤ e.score := by
  induction l generalizing i with
  | nil => simp [assignTiers]
  | cons a rest ih =>
    intro e he htier
    rw [assignTiers] at he
    rcases List.mem_cons.mp he with h | h
    · subst h
      simp only at htier
      by_cases h1 : i < hb
      · rw [if_pos h1] at htier
        exact absurd htier (by simp)
      · rw [if_neg h1] at htier
        by_cases h2 : ct ≤ a.score
        · exact h2
        · rw [if_neg h2] at htier
          exact absurd htier (by simp)
    · exact ih (i + 1) e h htier

theorem assignTiers_cold_lt (hb : Nat) (ct : ℚ) (i : Nat)
    (l : List ScoredEntry) :
    ∀ e ∈ assignTiers hb ct i l, e.tier = Tier.cold → e.score < ct := by
  induction l generalizing i with
  | nil => simp [assignTiers]
  | cons a rest ih =>
    intro e he htier
    rw [assignTiers] at he
    rcases List.mem_cons.mp he with h | h
    · subst h
      simp only at htier
      by_cases h1 : i < hb
      · rw [if_pos h1] at htier
        exact absurd htier (by simp)
      · rw [if_neg h1] at htier
        by_cases h2 : ct ≤ a.score
        · rw [if_pos h2] at htier
          exact absurd htier (by simp)
        · exact lt_of_not_le h2
    · exact ih (i + 1) e h htier

theorem assignTiers_hot_count (hb : Nat) (ct : ℚ) (i : Nat)
    (l : List ScoredEntry) :
    ((assignTiers hb ct i l).filter (fun e => e.tier = Tier.hot)).length ≤
      hb - i := by
  induction l generalizing i with
  | nil => simp [assignTiers]
  | cons a rest ih =>
    rw [assignTiers]
    by_cases h1 : i < hb
    · rw [if_pos h1, List.filter_cons]
      simp only [decide_eq_true_eq]
      simp only [if_true]
      have := ih (i + 1)
      simp only [List.length_cons]
      omega
    · rw [if_neg h1, List.filter_cons]
      by_cases h2 : ct ≤ a.score
      · rw [if_pos h2]
        simp only [decide_eq_true_eq]
        rw [if_neg (by simp)]
        have := ih (i + 1)
        omega
      · rw [if_neg h2]
        simp only [decide_eq_true_eq]
        rw [if_neg (by simp)]
        have := ih (i + 1)
        omega

/-- C9. `rebalance` sorts the scored rows descending and assigns tiers
positionally: whatever `assigned` list and `changed` count it returns,
the assigned scores are in descending order; the assigned `(key, score)`
pairs are a permutation of the rows'; every position below `hot_budget`
is `hot`; every later position is `warm` exactly when its score is at
least `cold_threshold` and `cold` otherwise; at most `hot_budget`
entries are `hot`; no `warm` entry scores below `cold_threshold`; every
`cold` entry does; and `changed` counts exactly the entries whose
assigned tier differs from their stored one. -/
theorem claim_C9_rebalance_invariants (hot_budget : Nat)
    (cold_threshold : ℚ) (rows : List MemRow) :
    ∀ assigned changed,
      rebalance hot_budget cold_threshold rows = (assigned, changed) →
      (assigned.map (fun e => e.score)).Pairwise (fun a b => b ≤ a) ∧
      List.Perm (assigned.map (fun e => (e.key, e.score)))
        (rows.map (fun r => (r.key, r.score))) ∧
      (∀ j, j < assigned.length → j < hot_budget →
        (assigned.getD j ⟨0, 0, Tier.warm⟩).tier = Tier.hot) ∧
      (∀ j, j < assigned.length → ¬ j < hot_budget →
        (assigned.getD j ⟨0, 0, Tier.warm⟩).tier =
          (if cold_threshold ≤ (assigned.getD j ⟨0, 0, Tier.warm⟩).score
           then Tier.warm else Tier.cold)) ∧
      (assigned.filter (fun e => e.tier = Tier.hot)).length ≤ hot_budget ∧
      (∀ e ∈ assigned, e.tier = Tier.warm → cold_threshold ≤ e.score) ∧
      (∀ e ∈ assigned, e.tier = Tier.cold → e.score < cold_threshold) ∧
      changed = (assigned.filter (fun e =>
        match rows.find? (fun r => r.key = e.key) with
        | some r => decide (r.tier ≠ e.tier)
        | none => false)).length := by
  intro assigned changed hreb
  simp only [rebalance, Prod.mk.injEq] at hreb
  obtain ⟨ha, hc⟩ := hreb
  have hmaps : ∀ m : List ScoredEntry, m.map (fun e => e.score) =
      (m.map (fun e => (e.key, e.score))).map (fun p => p.2) := by
    intro m
    rw [List.map_map]
    rfl
  refine ⟨?_, ?_, ?_, ?_, ?_, ?_, ?_, ?_⟩
  · rw [← ha, hmaps, assignTiers_keeps, ← hmaps]
    rw [List.pairwise_map]
    exact sorted_sortScoredDesc _
  · rw [← ha, assignTiers_keeps]
    have hp : List.Perm (sortScoredDesc (rows.map
        (fun r => ScoredEntry.mk r.key r.score Tier.warm)))
        (rows.map (fun r => ScoredEntry.mk r.key r.score Tier.warm)) :=
      perm_sortScoredDesc _
    have := hp.map (fun e => (e.key, e.score))
    rw [List.map_map] at this
    exact this
  · intro j hj hjh
    rw [← ha] at hj ⊢
    rw [assignTiers_length] at hj
    rw [assignTiers_getD hot_budget cold_threshold 0 _ j hj]
    simp [hjh]
  · intro j hj hjh
    rw [← ha] at hj ⊢
    rw [assignTiers_length] at hj
    rw [assignTiers_getD hot_budget cold_threshold 0 _ j hj]
    simp [hjh]
  · rw [← ha]
    have := assignTiers_hot_count hot_budget cold_threshold 0
      (sortScoredDesc (rows.map (fun r => ScoredEntry.mk r.key r.score
        Tier.warm)))
    omega
  · intro e he
    rw [← ha] at he
    exact assignTiers_warm_ge hot_budget cold_threshold 0 _ e he
  · intro e he
    rw [← ha] at he
    exact assignTiers_cold_lt hot_budget cold_threshold 0 _ e he
  · rw [← hc, ← ha]

/-- Concrete instance of the C9 theorem: one hot slot, threshold 2,
rows scored 1, 8, 3 — at most one entry ends hot and all three rows
change tier. -/
theorem claim_C9_rebalance_invariants_witness :
    ((rebalance 1 2 [⟨1, 1, Tier.hot⟩, ⟨2, 8, Tier.cold⟩,
        ⟨3, 3, Tier.cold⟩]).1.filter
      (fun e => e.tier = Tier.hot)).length ≤ 1 ∧
    (rebalance 1 2 [⟨1, 1, Tier.hot⟩, ⟨2, 8, Tier.cold⟩,
      ⟨3, 3, Tier.cold⟩]).2 = 3 := by
  have h := claim_C9_rebalance_invariants 1 2
    [⟨1, 1, Tier.hot⟩, ⟨2, 8, Tier.cold⟩, ⟨3, 3, Tier.cold⟩]
    (rebalance 1 2 [⟨1, 1, Tier.hot⟩, ⟨2, 8, Tier.cold⟩,
      ⟨3, 3, Tier.cold⟩]).1
    (rebalance 1 2 [⟨1, 1, Tier.hot⟩, ⟨2, 8, Tier.cold⟩,
      ⟨3, 3, Tier.cold⟩]).2
    rfl
  exact ⟨h.2.2.2.2.1, by decide⟩
